import Mathlib

/-!
Verification of the JSON element locator and excisor of `util/jsonutil`
(`FindElement` / `DropElement`).

The two functions under verification are translated directly from the Go
source.  They drive an external streaming JSON decoder (the standard
library `json.Decoder`), which the specification treats as a collaborator
offering `NextToken`, `DecodeValue` and `HasMoreAtLevel` together with byte
offsets.  That collaborator is modelled below from the spec (section 6),
instantiated with the standard decoder's documented behaviour: a nine-state
token machine, end of input between tokens reported as a clean EOF (the
source comments on this: "io.EOF is a successful end"), and offsets that
always point just past the most recently consumed token or value.

Buffers are lists of characters; offsets are natural numbers inside the
scanner and Go `int64` values (`Int`) in the public results, because the
backward scan of `FindElement` can drive an index below zero.  Out-of-range
indexing, which panics in Go, is modelled by explicit `panic` outcomes.
String tokens carry their raw quoted text (escape sequences are kept
verbatim); this is faithful for element names that contain no escapes,
which is the only way the functions under verification compare tokens.
-/

namespace Jsonutil

/-- Buffers are modelled as lists of characters (Go byte slices of text). -/
abbrev Buf := List Char

/-- Source constant: `var comma = byte(',')`. -/
def comma : Char := Char.ofNat 44

/-- Source constant: `var colon = byte(':')`. -/
def colon : Char := Char.ofNat 58

/-- Source constant: `var sqBracket = byte(']')`. -/
def sqBracket : Char := Char.ofNat 93

/-- Source constant: `var closingCurlyBracket = byte('}')`. -/
def closingCurlyBracket : Char := Char.ofNat 125

/-- Opening square bracket. -/
def openSqBracket : Char := Char.ofNat 91

/-- Opening curly bracket. -/
def openCurlyBracket : Char := Char.ofNat 123

/-- Double quote. -/
def quoteMark : Char := Char.ofNat 34

/-- Backslash. -/
def backslashCh : Char := Char.ofNat 92

/-- JSON insignificant whitespace, as accepted by the decoder. -/
def isWS (c : Char) : Bool := c = ' ' || c = '\t' || c = '\n' || c = '\r'

/-- Errors reported by the modelled tokenizer / value decoder. -/
inductive JErr
  | eofErr
  | unexpectedEOF
  | syntaxErr
  | fuelOut
deriving DecidableEq, Repr

/-- Tokens yielded by the streaming tokenizer. -/
inductive Tok
  | lbrack
  | rbrack
  | lbrace
  | rbrace
  | str (content : List Char)
  | num
  | boolTrue
  | boolFalse
  | nullLit
deriving DecidableEq, Repr

/-- The decoder's token-machine states (one per state of the standard decoder). -/
inductive TState
  | top
  | arrStart
  | arrVal
  | arrComma
  | objStart
  | objKey
  | objColon
  | objVal
  | objComma
deriving DecidableEq, Repr

/-- States in which a value may begin. -/
def valueAllowed : TState → Bool
  | .top => true
  | .arrStart => true
  | .arrVal => true
  | .objVal => true
  | _ => false

/-- State update after a complete value has been consumed. -/
def valueEnd : TState → TState
  | .arrStart => .arrComma
  | .arrVal => .arrComma
  | .objVal => .objComma
  | s => s

/-- Skip whitespace starting from index `i` over the remaining characters,
returning the index and character of the first non-whitespace byte. -/
def peekGo : List Char → Nat → Option (Nat × Char)
  | [], _ => none
  | c :: cs, i => if isWS c then peekGo cs (i + 1) else some (i, c)

/-- The decoder's `peek`: first non-whitespace byte at or after `pos`. -/
def peekIdx (b : Buf) (pos : Nat) : Option (Nat × Char) :=
  peekGo (b.drop pos) pos

/-- Scan the inside of a string token: characters after the opening quote,
accumulating raw content; a backslash keeps the escaped character verbatim.
Returns the content together with the offset just past the closing quote. -/
def scanStrGo : List Char → Nat → List Char → Option (List Char × Nat)
  | [], _, _ => none
  | c :: cs, i, acc =>
    if c = quoteMark then some (acc.reverse, i + 1)
    else if c = backslashCh then
      match cs with
      | [] => none
      | d :: ds => scanStrGo ds (i + 2) (d :: c :: acc)
    else scanStrGo cs (i + 1) (c :: acc)

/-- Scan a string token whose opening quote sits at index `q`. -/
def scanString (b : Buf) (q : Nat) : Option (List Char × Nat) :=
  scanStrGo (b.drop (q + 1)) (q + 1) []

/-- Characters that may continue a number token. -/
def isNumChar (c : Char) : Bool :=
  c.isDigit || c = '-' || c = '+' || c = '.' || c = 'e' || c = 'E'

/-- Maximal run of number characters starting at index `i`. -/
def scanNumGo : List Char → Nat → Nat
  | [], i => i
  | c :: cs, i => if isNumChar c then scanNumGo cs (i + 1) else i

/-- End offset of the number token starting at index `q`. -/
def scanNumber (b : Buf) (q : Nat) : Nat :=
  scanNumGo (b.drop q) q

/-- Result of one `NextToken` call: a token with the new offset and machine
state, a clean end of input, or a decode error. -/
inductive TokRes
  | tok (t : Tok) (pos : Nat) (st : TState) (stk : List TState)
  | eofTok
  | errTok (e : JErr)
deriving DecidableEq, Repr

/-- Token dispatch on the first significant character `c` at index `q`
(every character except colon and comma, which the caller handles). -/
def tokenAt (b : Buf) (q : Nat) (c : Char) (st : TState) (stk : List TState) : TokRes :=
  if c = openSqBracket then
    if valueAllowed st then .tok .lbrack (q + 1) .arrStart (st :: stk)
    else .errTok .syntaxErr
  else if c = sqBracket then
    if st = .arrStart || st = .arrComma then
      match stk with
      | [] => .errTok .syntaxErr
      | s :: rest => .tok .rbrack (q + 1) (valueEnd s) rest
    else .errTok .syntaxErr
  else if c = openCurlyBracket then
    if valueAllowed st then .tok .lbrace (q + 1) .objStart (st :: stk)
    else .errTok .syntaxErr
  else if c = closingCurlyBracket then
    if st = .objStart || st = .objComma then
      match stk with
      | [] => .errTok .syntaxErr
      | s :: rest => .tok .rbrace (q + 1) (valueEnd s) rest
    else .errTok .syntaxErr
  else if c = quoteMark then
    if st = .objStart || st = .objKey then
      match scanString b q with
      | none => .errTok .unexpectedEOF
      | some (content, p) => .tok (.str content) p .objColon stk
    else if valueAllowed st then
      match scanString b q with
      | none => .errTok .unexpectedEOF
      | some (content, p) => .tok (.str content) p (valueEnd st) stk
    else .errTok .syntaxErr
  else if c.isDigit || c = '-' then
    if valueAllowed st then .tok .num (scanNumber b q) (valueEnd st) stk
    else .errTok .syntaxErr
  else if c = 't' then
    if valueAllowed st then
      if ['t', 'r', 'u', 'e'].isPrefixOf (b.drop q) then .tok .boolTrue (q + 4) (valueEnd st) stk
      else .errTok .syntaxErr
    else .errTok .syntaxErr
  else if c = 'f' then
    if valueAllowed st then
      if ['f', 'a', 'l', 's', 'e'].isPrefixOf (b.drop q) then .tok .boolFalse (q + 5) (valueEnd st) stk
      else .errTok .syntaxErr
    else .errTok .syntaxErr
  else if c = 'n' then
    if valueAllowed st then
      if ['n', 'u', 'l', 'l'].isPrefixOf (b.drop q) then .tok .nullLit (q + 4) (valueEnd st) stk
      else .errTok .syntaxErr
    else .errTok .syntaxErr
  else .errTok .syntaxErr

/-- `NextToken` continued after a structural colon or comma has been
consumed: at this point another colon or comma is a syntax error. -/
def tokenCore (b : Buf) (pos : Nat) (st : TState) (stk : List TState) : TokRes :=
  match peekIdx b pos with
  | none => .eofTok
  | some (q, c) =>
    if c = colon || c = comma then .errTok .syntaxErr
    else tokenAt b q c st stk

/-- `NextToken`: skip whitespace, silently consume a legal structural colon
or comma, then yield the next token (spec section 6 collaborator). -/
def nextToken (b : Buf) (pos : Nat) (st : TState) (stk : List TState) : TokRes :=
  match peekIdx b pos with
  | none => .eofTok
  | some (q, c) =>
    if c = colon then
      if st = .objColon then tokenCore b (q + 1) .objVal stk else .errTok .syntaxErr
    else if c = comma then
      match st with
      | .arrComma => tokenCore b (q + 1) .arrVal stk
      | .objComma => tokenCore b (q + 1) .objKey stk
      | _ => .errTok .syntaxErr
    else tokenAt b q c st stk

/-- Scalar tokens (including key strings). -/
def isScalarTok : Tok → Bool
  | .str _ => true
  | .num => true
  | .boolTrue => true
  | .boolFalse => true
  | .nullLit => true
  | _ => false

/-- Closing-delimiter tokens. -/
def isCloseTok : Tok → Bool
  | .rbrack => true
  | .rbrace => true
  | _ => false

/-- Iterate the tokenizer until the value entered at nesting depth `d0` is
complete: a scalar at depth `d0`, or a close delimiter returning to `d0`. -/
def decodeLoop (b : Buf) (d0 : Nat) :
    Nat → Nat → TState → List TState → Except JErr (Nat × TState × List TState)
  | 0, _, _, _ => .error .fuelOut
  | fuel + 1, pos, st, stk =>
    match nextToken b pos st stk with
    | .eofTok => .error .eofErr
    | .errTok e => .error e
    | .tok t p2 st2 stk2 =>
      if stk2.length < d0 then .error .syntaxErr
      else if stk2.length = d0 && (isScalarTok t || isCloseTok t) then .ok (p2, st2, stk2)
      else decodeLoop b d0 fuel p2 st2 stk2

/-- `DecodeValue` collaborator: consume exactly one full value from the
current machine state, reporting the offset immediately after it.  A
pending separator is consumed first (comma after an array element, colon
after an object key); decoding from any other non-value position fails. -/
def decodeValue (b : Buf) (pos : Nat) (st : TState) (stk : List TState) :
    Except JErr (Nat × TState × List TState) :=
  match st with
  | .arrComma =>
    match peekIdx b pos with
    | none => .error .eofErr
    | some (q, c) =>
      if c = comma then decodeLoop b stk.length (b.length + 1) (q + 1) .arrVal stk
      else .error .syntaxErr
  | .objColon =>
    match peekIdx b pos with
    | none => .error .eofErr
    | some (q, c) =>
      if c = colon then decodeLoop b stk.length (b.length + 1) (q + 1) .objVal stk
      else .error .syntaxErr
  | s =>
    if valueAllowed s then decodeLoop b stk.length (b.length + 1) pos s stk
    else .error .syntaxErr

/-- `HasMoreAtLevel` collaborator (`dec.More()`): a significant byte follows
and it is not a closing delimiter. -/
def hasMore (b : Buf) (pos : Nat) : Bool :=
  match peekIdx b pos with
  | none => false
  | some (_, c) => !(c = sqBracket || c = closingCurlyBracket)

/-- Outcome of the token-scanning loop of `FindElement` (source lines 28-63). -/
inductive LRes
  | noMatch (s : Nat)
  | matched (s e : Nat)
  | errored (e : JErr)
  | panicked
deriving DecidableEq, Repr

/-- Forward scan from `i` until a comma is found, returning the offset one
past it; `none` models the out-of-range panic (source lines 49-56). -/
def scanCommaGo : List Char → Nat → Option Nat
  | [], _ => none
  | c :: cs, i => if c = comma then some (i + 1) else scanCommaGo cs (i + 1)

/-- Forward comma scan over the buffer starting at offset `e`. -/
def scanComma (b : Buf) (e : Nat) : Option Nat :=
  scanCommaGo (b.drop e) e

/-- The token-scanning loop of `FindElement` (source lines 28-63): track
`startIndex` as the offset just past the previous token; on a token equal to
the element name, decode the following value, record its end offset, and
widen the range across one separating comma when more elements follow. -/
def findLoop (b : Buf) (name : List Char) :
    Nat → Nat → TState → List TState → Nat → LRes
  | 0, _, _, _, _ => .errored .fuelOut
  | fuel + 1, pos, st, stk, start =>
    match nextToken b pos st stk with
    | .eofTok => .noMatch start
    | .errTok e => .errored e
    | .tok t p2 st2 stk2 =>
      if t = Tok.str name then
        match decodeValue b p2 st2 stk2 with
        | .error e => .errored e
        | .ok (e1, _, _) =>
          if hasMore b e1 then
            match b.get? start with
            | none => .panicked
            | some c =>
              match scanComma b e1 with
              | none => .panicked
              | some e2 => .matched (if c = comma then start + 1 else start) e2
          else .matched start e1
      else findLoop b name fuel p2 st2 stk2 p2

/-- Forward scan from `i` for the colon that begins the nested element,
returning the offset one past it; `none` models the panic (source lines 68-75). -/
def colonScanGo : List Char → Nat → Option Nat
  | [], _ => none
  | c :: cs, i => if c = colon then some (i + 1) else colonScanGo cs (i + 1)

/-- Forward colon scan over the buffer starting at offset `s`. -/
def colonScan (b : Buf) (s : Nat) : Option Nat :=
  colonScanGo (b.drop s) s

/-- Byte access at a Go `int64` index; `none` models the index-out-of-range panic. -/
def getc (b : Buf) (i : Int) : Option Char :=
  if i < 0 then none else b.get? i.toNat

/-- Backward scan from `endIndex` stripping the matched value's trailing
delimiter during window narrowing (source lines 76-92): stop unchanged at a
closing bracket, step one back past a comma, otherwise keep walking back.
`none` models the index-out-of-range panic. -/
def backScan (b : Buf) : Nat → Int → Option Int
  | 0, _ => none
  | fuel + 1, e =>
    let e1 : Int := if e = (b.length : Int) then e - 1 else e
    match getc b e1 with
    | none => none
    | some c =>
      if c = sqBracket || c = closingCurlyBracket then some e1
      else if c = comma then some (e1 - 1)
      else backScan b fuel (e1 - 1)

/-- Result of `FindElement`: found flag with the `[start, end)` offsets, a
propagated decoder error, or a panic. -/
inductive FRes
  | ok (found : Bool) (s e : Int)
  | err (e : JErr)
  | panic
deriving DecidableEq, Repr

/-- `FindElement` (source lines 21-101): scan for the first token equal to
the head path segment; on a match record and widen the byte range; for a
multi-segment path narrow the window to the matched value's interior and
recurse, translating the nested offsets back by the window's start. -/
def findElement (extension : Buf) (elementNames : List (List Char)) : FRes :=
  match elementNames with
  | [] => .panic
  | elementName :: rest =>
    match findLoop extension elementName (extension.length + 1) 0 .top [] 0 with
    | .errored e => .err e
    | .panicked => .panic
    | .noMatch s => .ok false (s : Int) 0
    | .matched s e =>
      if rest.isEmpty then .ok true (s : Int) (e : Int)
      else
        match colonScan extension s with
        | none => .panic
        | some s2 =>
          match backScan extension (extension.length + 2) (e : Int) with
          | none => .panic
          | some e2 =>
            if (s2 : Int) ≤ e2 ∧ e2 ≤ (extension.length : Int) then
              match findElement ((extension.drop s2).take (e2 - (s2 : Int)).toNat) rest with
              | .ok f si ei => .ok f ((s2 : Int) + si) ((s2 : Int) + ei)
              | .err e3 => .err e3
              | .panic => .panic
            else .panic

/-- Result of `DropElement`: the (possibly shortened) buffer, a propagated
error, or a panic. -/
inductive DRes
  | ok (b : Buf)
  | err (e : JErr)
  | panic
deriving DecidableEq, Repr

/-- `DropElement` (source lines 107-116): locate the element and, when
found, remove the bytes in `[start, end)`. -/
def dropElement (extension : Buf) (elementNames : List (List Char)) : DRes :=
  match findElement extension elementNames with
  | .err e => .err e
  | .panic => .panic
  | .ok false _ _ => .ok extension
  | .ok true s e =>
    if 0 ≤ s ∧ s ≤ (extension.length : Int) ∧ 0 ≤ e ∧ e ≤ (extension.length : Int) then
      .ok (extension.take s.toNat ++ extension.drop e.toNat)
    else .panic

/-- Run the tokenizer to exhaustion, collecting the tokens it yields. -/
def tokLoop (b : Buf) : Nat → Nat → TState → List TState → Except JErr (List Tok)
  | 0, _, _, _ => .error .fuelOut
  | fuel + 1, pos, st, stk =>
    match nextToken b pos st stk with
    | .eofTok => .ok []
    | .errTok e => .error e
    | .tok t p2 st2 stk2 =>
      match tokLoop b fuel p2 st2 stk2 with
      | .ok ts => .ok (t :: ts)
      | .error e => .error e

/-- The standalone tokenizer run over a whole buffer. -/
def tokenizeAll (b : Buf) : Except JErr (List Tok) :=
  tokLoop b (b.length + 1) 0 .top []

/-- A token that completes a top-level value: a scalar or closing delimiter
consumed with an empty nesting stack. -/
def completesTop (t : Tok) (stk : List TState) : Bool :=
  stk.isEmpty && (isScalarTok t || isCloseTok t)

/-- Tokenize to exhaustion counting completed top-level values; succeeds only
when the machine ends cleanly outside any structure. -/
def valLoop (b : Buf) : Nat → Nat → TState → List TState → Nat → Except JErr Nat
  | 0, _, _, _, _ => .error .fuelOut
  | fuel + 1, pos, st, stk, cnt =>
    match nextToken b pos st stk with
    | .eofTok => if st = .top ∧ stk = [] then .ok cnt else .error .unexpectedEOF
    | .errTok e => .error e
    | .tok t p2 st2 stk2 =>
      valLoop b fuel p2 st2 stk2 (if completesTop t stk2 then cnt + 1 else cnt)

/-- Modelled from the spec: a buffer is well-formed JSON when the streaming
tokenizer consumes it without error as exactly one complete top-level value. -/
def jsonValid (b : Buf) : Bool :=
  match valLoop b (b.length + 1) 0 .top [] 0 with
  | .ok 1 => true
  | _ => false

/-- Buffer literal helper. -/
def strOf (s : String) : Buf := s.data

deriving instance DecidableEq for Except

/-- Shape of one token transition of the machine, relative to the state
`st1` from which the token dispatch ran: a scalar leaves the stack alone, an
opening delimiter pushes `st1`, a closing delimiter pops. -/
def StepShape (st1 : TState) (stk : List TState) (t : Tok) (st2 : TState)
    (stk2 : List TState) : Prop :=
  (stk2 = stk ∧ isScalarTok t = true ∧
    ((st2 = .objColon ∧ (st1 = .objStart ∨ st1 = .objKey)) ∨
     (valueAllowed st1 = true ∧ st2 = valueEnd st1))) ∨
  (stk2 = st1 :: stk ∧ valueAllowed st1 = true ∧ (st2 = .arrStart ∨ st2 = .objStart)) ∨
  (∃ s0, stk = s0 :: stk2 ∧ st2 = valueEnd s0 ∧ isCloseTok t = true)

/-- The state a `nextToken` call hands to its dispatch after silently
consuming a pending structural colon or comma. -/
def Dispatched (st st1 : TState) : Prop :=
  st1 = st ∨ (st = .objColon ∧ st1 = .objVal) ∨ (st = .arrComma ∧ st1 = .arrVal) ∨
    (st = .objComma ∧ st1 = .objKey)

/-- The validation run from the given machine configuration succeeds with a
final count of exactly one top-level value. -/
def ValInv (b : Buf) (pos : Nat) (st : TState) (stk : List TState) (cnt : Nat) : Prop :=
  ∃ f, valLoop b f pos st stk cnt = .ok 1

/-- Well-formedness of a machine configuration: the `top` state only occurs
with an empty stack, every pushed state may begin a value, and `top` can sit
only at the bottom of the stack. -/
def StackOK (st : TState) (stk : List TState) : Prop :=
  (st = .top → stk = []) ∧ (∀ s ∈ stk, valueAllowed s = true) ∧
    ∀ s ∈ stk.dropLast, s ≠ .top




/-- C3: on the single-level object `{"a":1,"b":2,"c":3}`, dropping `["b"]`
yields `{"a":1,"c":3}`; on `{"a":1,"b":2}` dropping `["a"]` yields
`{"b":2}` and dropping `["b"]` yields `{"a":1}`; on `{"a":1}` dropping
`["a"]` yields `{}` — each with a nil error and intact comma structure. -/
theorem c3_single_level_drops :
    dropElement (strOf "\x7b\"a\":1,\"b\":2,\"c\":3\x7d") [strOf "b"] =
      .ok (strOf "\x7b\"a\":1,\"c\":3\x7d") ∧
    dropElement (strOf "\x7b\"a\":1,\"b\":2\x7d") [strOf "a"] = .ok (strOf "\x7b\"b\":2\x7d") ∧
    dropElement (strOf "\x7b\"a\":1,\"b\":2\x7d") [strOf "b"] = .ok (strOf "\x7b\"a\":1\x7d") ∧
    dropElement (strOf "\x7b\"a\":1\x7d") [strOf "a"] = .ok (strOf "\x7b\x7d") := by
  decide

/-- C4: on the nested object `{"x":{"y":{"z":5}},"w":1}` with path
`["x","y","z"]`, DropElement removes only the innermost matched member and
preserves the siblings at every nesting level. -/
theorem c4_nested_drop :
    dropElement (strOf "\x7b\"x\":\x7b\"y\":\x7b\"z\":5\x7d\x7d,\"w\":1\x7d")
        [strOf "x", strOf "y", strOf "z"] =
      .ok (strOf "\x7b\"x\":\x7b\"y\":\x7b\x7d\x7d,\"w\":1\x7d") := by
  decide

/-- C2 (code bug): on the well-formed buffer `{"a":1 ,"b":2,"c":3}` —
whitespace before the separating comma — dropping `["b"]` removes both the
leading and the trailing separator, producing `{"a":1"c":3}`, which the
tokenizer rejects: the removal does not keep the buffer valid JSON. -/
theorem c2_whitespace_comma_bug :
    jsonValid (strOf "\x7b\"a\":1 ,\"b\":2,\"c\":3\x7d") = true ∧
    findElement (strOf "\x7b\"a\":1 ,\"b\":2,\"c\":3\x7d") [strOf "b"] = .ok true 6 14 ∧
    dropElement (strOf "\x7b\"a\":1 ,\"b\":2,\"c\":3\x7d") [strOf "b"] =
      .ok (strOf "\x7b\"a\":1\"c\":3\x7d") ∧
    jsonValid (strOf "\x7b\"a\":1\"c\":3\x7d") = false := by
  decide

/-- C9: with an empty path, both functions read `elementNames[0]` before
anything else and panic, for every buffer. -/
theorem c9_empty_path_panics (b : Buf) :
    findElement b [] = .panic ∧ dropElement b [] = .panic := by
  constructor
  · rfl
  · rfl

/-- C5 (counterexample): on `{"a":1,"b":!}` the standalone tokenizer reports
malformed input, yet FindElement — which stops at the first match — returns
a successful `found = true` result with a nil error; and on the truncated
object `{"a":1` (not valid JSON) it returns a `found = false` success. -/
theorem c5_counterexample :
    tokenizeAll (strOf "\x7b\"a\":1,\"b\":!\x7d") = .error .syntaxErr ∧
    findElement (strOf "\x7b\"a\":1,\"b\":!\x7d") [strOf "a"] = .ok true 1 7 ∧
    jsonValid (strOf "\x7b\"a\":1") = false ∧
    findElement (strOf "\x7b\"a\":1") [strOf "b"] = .ok false 6 0 := by
  decide

/-- C5 (amended): any error that the tokenizer or value decoder reports
during FindElement's own scan is returned by FindElement, and DropElement
propagates exactly that error (returning no buffer, the input unmutated). -/
theorem c5_error_propagation {b : Buf} {p : List (List Char)} {e : JErr}
    (h : findElement b p = .err e) : dropElement b p = .err e := by
  simp [dropElement, h]

/-- Witness for C5 (amended) at the truncated-string buffer `{"a`. -/
theorem c5_error_propagation_witness :
    findElement (strOf "\x7b\"a") [strOf "x"] = .err .unexpectedEOF ∧
    dropElement (strOf "\x7b\"a") [strOf "x"] = .err .unexpectedEOF :=
  ⟨by decide, c5_error_propagation (by decide)⟩

/-- C8 (counterexample): on `{"a":{"b":1},"b":2}` the first Drop of `["b"]`
removes the nested occurrence, and a second Drop on the shortened buffer
finds the remaining `"b"` again — `found = true`, not `found = false` —
and removes it too. -/
theorem c8_counterexample :
    findElement (strOf "\x7b\"a\":\x7b\"b\":1\x7d,\"b\":2\x7d") [strOf "b"] = .ok true 6 11 ∧
    dropElement (strOf "\x7b\"a\":\x7b\"b\":1\x7d,\"b\":2\x7d") [strOf "b"] =
      .ok (strOf "\x7b\"a\":\x7b\x7d,\"b\":2\x7d") ∧
    findElement (strOf "\x7b\"a\":\x7b\x7d,\"b\":2\x7d") [strOf "b"] = .ok true 7 13 ∧
    dropElement (strOf "\x7b\"a\":\x7b\x7d,\"b\":2\x7d") [strOf "b"] =
      .ok (strOf "\x7b\"a\":\x7b\x7d\x7d") := by
  decide

/-- C10 (counterexample): on the well-formed buffer `{"a":12 }` with the
multi-segment path `["a","z"]`, the backward narrowing scan walks past the
start of the buffer to index `-1` and FindElement panics. -/
theorem c10_counterexample :
    jsonValid (strOf "\x7b\"a\":12 \x7d") = true ∧
    findElement (strOf "\x7b\"a\":12 \x7d") [strOf "a", strOf "z"] = .panic := by
  decide

/-! ### Offset bookkeeping: every operation stays within the buffer -/

/-- A successful lookup pins the index below the length. -/
theorem get?_lt {b : Buf} {q : Nat} {c : Char} (h : b.get? q = some c) : q < b.length :=
  (List.get?_eq_some.mp h).1

/-- Unfold one element of a drop at a known index. -/
theorem drop_cons_of_get? {b : Buf} {q : Nat} {c : Char} (h : b.get? q = some c) :
    b.drop q = c :: b.drop (q + 1) := by
  have hq : q < b.length := get?_lt h
  rw [List.drop_eq_getElem_cons hq]
  have hc : b[q] = c := by
    rw [List.get?_eq_getElem?] at h
    exact (List.getElem?_eq_some.mp h).2
  rw [hc]

/-- Indexing after a drop. -/
theorem get?_drop_eq (b : Buf) (pos m : Nat) : (b.drop pos).get? m = b.get? (pos + m) := by
  simp [List.get?_eq_getElem?, List.getElem?_drop]

/-- The whitespace-skipping peek yields an in-bounds index at or after the
start, and every skipped byte is whitespace. -/
theorem peekIdx_spec {b : Buf} {pos q : Nat} {c : Char} (h : peekIdx b pos = some (q, c)) :
    pos ≤ q ∧ b.get? q = some c ∧
      ∀ j, pos ≤ j → j < q → ∃ d, b.get? j = some d ∧ isWS d = true := by
  rw [peekIdx] at h
  have key : ∀ (l : List Char) (i : Nat), l = b.drop i → ∀ (q2 : Nat) (c2 : Char),
      peekGo l i = some (q2, c2) → i ≤ q2 ∧ b.get? q2 = some c2 ∧
        ∀ j, i ≤ j → j < q2 → ∃ d, b.get? j = some d ∧ isWS d = true := by
    intro l
    induction l with
    | nil => intro i _ q2 c2 h2; simp [peekGo] at h2
    | cons hd tl ih =>
      intro i hdrop q2 c2 h2
      have hget : b.get? i = some hd := by
        have := get?_drop_eq b i 0
        rw [← hdrop] at this
        simpa using this.symm
      have htl : tl = b.drop (i + 1) := by
        have := drop_cons_of_get? hget
        rw [← hdrop] at this
        exact (List.cons.injEq _ _ _ _).mp this |>.2
      by_cases hws : isWS hd
      · rw [peekGo, if_pos hws] at h2
        obtain ⟨h3, h4, h5⟩ := ih (i + 1) htl q2 c2 h2
        refine ⟨by omega, h4, ?_⟩
        intro j hj1 hj2
        rcases Nat.eq_or_lt_of_le hj1 with rfl | hlt
        · exact ⟨hd, hget, hws⟩
        · exact h5 j hlt hj2
      · rw [peekGo, if_neg hws] at h2
        obtain ⟨rfl, rfl⟩ : i = q2 ∧ hd = c2 := by
          simpa using h2
        exact ⟨le_refl _, hget, fun j hj1 hj2 => absurd (lt_of_le_of_lt hj1 hj2) (lt_irrefl _)⟩
  exact key (b.drop pos) pos rfl q c h

/-- String scanning moves strictly forward and stays within the remaining
input (strong induction on the length of the remaining input). -/
theorem scanStrGo_boundsAux :
    ∀ (n : Nat) (l : List Char), l.length ≤ n → ∀ (i : Nat) (acc content : List Char) (p : Nat),
      scanStrGo l i acc = some (content, p) → i < p ∧ p ≤ i + l.length := by
  intro n
  induction n with
  | zero =>
    intro l hl i acc content p h
    have : l = [] := List.length_eq_zero.mp (Nat.le_zero.mp hl)
    subst this
    rw [scanStrGo.eq_1] at h
    cases h
  | succ n ih =>
    intro l hl i acc content p h
    match l with
    | [] => rw [scanStrGo.eq_1] at h; cases h
    | [c] =>
      rw [scanStrGo.eq_2] at h
      by_cases hc : c = quoteMark
      · rw [if_pos hc] at h
        cases h
        simp only [List.length_cons, List.length_nil]
        omega
      · rw [if_neg hc] at h
        by_cases hb : c = backslashCh
        · rw [if_pos hb] at h; cases h
        · rw [if_neg hb, scanStrGo.eq_1] at h; cases h
    | c :: d :: ds =>
      rw [scanStrGo.eq_3] at h
      by_cases hc : c = quoteMark
      · rw [if_pos hc] at h
        cases h
        simp only [List.length_cons]
        omega
      · rw [if_neg hc] at h
        by_cases hb : c = backslashCh
        · rw [if_pos hb] at h
          have hlen : ds.length ≤ n := by
            simp only [List.length_cons] at hl
            omega
          have := ih ds hlen (i + 2) (d :: c :: acc) content p h
          simp only [List.length_cons]
          omega
        · rw [if_neg hb] at h
          have hlen : (d :: ds).length ≤ n := by
            simp only [List.length_cons] at hl ⊢
            omega
          have := ih (d :: ds) hlen (i + 1) (c :: acc) content p h
          simp only [List.length_cons] at this ⊢
          omega

/-- The string token starting at `q` ends strictly after `q + 1` and within
the buffer. -/
theorem scanString_bounds {b : Buf} {q : Nat} {content : List Char} {p : Nat}
    (h : scanString b q = some (content, p)) : q + 1 < p ∧ p ≤ b.length := by
  rw [scanString] at h
  have := scanStrGo_boundsAux (b.drop (q + 1)).length (b.drop (q + 1)) le_rfl
    (q + 1) [] content p h
  have hlen : (b.drop (q + 1)).length = b.length - (q + 1) := by simp
  omega

/-- Number scanning never moves backwards and stays within the remaining input. -/
theorem scanNumGo_bounds (l : List Char) :
    ∀ i, i ≤ scanNumGo l i ∧ scanNumGo l i ≤ i + l.length := by
  induction l with
  | nil => intro i; simp [scanNumGo]
  | cons c cs ih =>
    intro i
    rw [show scanNumGo (c :: cs) i
          = if isNumChar c then scanNumGo cs (i + 1) else i from rfl]
    by_cases hc : isNumChar c
    · rw [if_pos hc]
      have := ih (i + 1)
      simp only [List.length_cons]
      omega
    · rw [if_neg hc]
      simp only [List.length_cons]
      omega

/-- The number token starting at a numeric character ends strictly after it
and within the buffer. -/
theorem scanNumber_bounds {b : Buf} {q : Nat} {c : Char} (hget : b.get? q = some c)
    (hc : isNumChar c = true) : q < scanNumber b q ∧ scanNumber b q ≤ b.length := by
  rw [scanNumber, drop_cons_of_get? hget,
    show scanNumGo (c :: b.drop (q + 1)) q
      = if isNumChar c then scanNumGo (b.drop (q + 1)) (q + 1) else q from rfl, if_pos hc]
  have := scanNumGo_bounds (b.drop (q + 1)) (q + 1)
  have hlen : (b.drop (q + 1)).length = b.length - (q + 1) := by simp
  have hq : q < b.length := get?_lt hget
  omega

/-- A prefix check bounds the buffer remainder from below. -/
theorem isPrefixOf_length_le {l1 l2 : List Char} (h : l1.isPrefixOf l2) :
    l1.length ≤ l2.length :=
  (List.isPrefixOf_iff_prefix.mp h).length_le

/-- Every token produced by `tokenAt` ends strictly after `q` and within the buffer. -/
theorem tokenAt_bounds {b : Buf} {q : Nat} {c : Char} {st : TState} {stk : List TState}
    {t : Tok} {p2 : Nat} {st2 : TState} {stk2 : List TState}
    (hget : b.get? q = some c)
    (h : tokenAt b q c st stk = .tok t p2 st2 stk2) : q < p2 ∧ p2 ≤ b.length := by
  have hq : q < b.length := get?_lt hget
  have hdl : (b.drop q).length = b.length - q := by simp
  unfold tokenAt at h
  by_cases h1 : c = openSqBracket
  · rw [if_pos h1] at h
    by_cases hv : valueAllowed st = true
    · rw [if_pos hv] at h; cases h; omega
    · rw [if_neg hv] at h; cases h
  rw [if_neg h1] at h
  by_cases h2 : c = sqBracket
  · rw [if_pos h2] at h
    by_cases hv : (st = TState.arrStart || st = TState.arrComma) = true
    · rw [if_pos hv] at h
      cases stk with
      | nil => cases h
      | cons s rest => cases h; omega
    · rw [if_neg hv] at h; cases h
  rw [if_neg h2] at h
  by_cases h3 : c = openCurlyBracket
  · rw [if_pos h3] at h
    by_cases hv : valueAllowed st = true
    · rw [if_pos hv] at h; cases h; omega
    · rw [if_neg hv] at h; cases h
  rw [if_neg h3] at h
  by_cases h4 : c = closingCurlyBracket
  · rw [if_pos h4] at h
    by_cases hv : (st = TState.objStart || st = TState.objComma) = true
    · rw [if_pos hv] at h
      cases stk with
      | nil => cases h
      | cons s rest => cases h; omega
    · rw [if_neg hv] at h; cases h
  rw [if_neg h4] at h
  by_cases h5 : c = quoteMark
  · rw [if_pos h5] at h
    by_cases hv : (st = TState.objStart || st = TState.objKey) = true
    · rw [if_pos hv] at h
      cases hscan : scanString b q with
      | none => rw [hscan] at h; cases h
      | some v =>
        obtain ⟨content0, p0⟩ := v
        rw [hscan] at h
        cases h
        have := scanString_bounds hscan
        omega
    · rw [if_neg hv] at h
      by_cases hv2 : valueAllowed st = true
      · rw [if_pos hv2] at h
        cases hscan : scanString b q with
        | none => rw [hscan] at h; cases h
        | some v =>
          obtain ⟨content0, p0⟩ := v
          rw [hscan] at h
          cases h
          have := scanString_bounds hscan
          omega
      · rw [if_neg hv2] at h; cases h
  rw [if_neg h5] at h
  by_cases h6 : (c.isDigit || c = '-') = true
  · rw [if_pos h6] at h
    by_cases hv : valueAllowed st = true
    · rw [if_pos hv] at h
      cases h
      have hnum : isNumChar c = true := by
        simp only [isNumChar, Bool.or_eq_true] at h6 ⊢
        tauto
      have := scanNumber_bounds hget hnum
      omega
    · rw [if_neg hv] at h; cases h
  rw [if_neg h6] at h
  by_cases h7 : c = 't'
  · rw [if_pos h7] at h
    by_cases hv : valueAllowed st = true
    · rw [if_pos hv] at h
      by_cases hpre : ['t', 'r', 'u', 'e'].isPrefixOf (b.drop q) = true
      · rw [if_pos hpre] at h
        cases h
        have := isPrefixOf_length_le hpre
        simp only [List.length_cons, List.length_nil] at this
        omega
      · rw [if_neg hpre] at h; cases h
    · rw [if_neg hv] at h; cases h
  rw [if_neg h7] at h
  by_cases h8 : c = 'f'
  · rw [if_pos h8] at h
    by_cases hv : valueAllowed st = true
    · rw [if_pos hv] at h
      by_cases hpre : ['f', 'a', 'l', 's', 'e'].isPrefixOf (b.drop q) = true
      · rw [if_pos hpre] at h
        cases h
        have := isPrefixOf_length_le hpre
        simp only [List.length_cons, List.length_nil] at this
        omega
      · rw [if_neg hpre] at h; cases h
    · rw [if_neg hv] at h; cases h
  rw [if_neg h8] at h
  by_cases h9 : c = 'n'
  · rw [if_pos h9] at h
    by_cases hv : valueAllowed st = true
    · rw [if_pos hv] at h
      by_cases hpre : ['n', 'u', 'l', 'l'].isPrefixOf (b.drop q) = true
      · rw [if_pos hpre] at h
        cases h
        have := isPrefixOf_length_le hpre
        simp only [List.length_cons, List.length_nil] at this
        omega
      · rw [if_neg hpre] at h; cases h
    · rw [if_neg hv] at h; cases h
  rw [if_neg h9] at h
  cases h

/-- Every token produced by `tokenCore` ends strictly after `pos` and within
the buffer. -/
theorem tokenCore_bounds {b : Buf} {pos : Nat} {st : TState} {stk : List TState}
    {t : Tok} {p2 : Nat} {st2 : TState} {stk2 : List TState}
    (h : tokenCore b pos st stk = .tok t p2 st2 stk2) : pos < p2 ∧ p2 ≤ b.length := by
  unfold tokenCore at h
  cases hp : peekIdx b pos with
  | none => simp only [hp] at h; cases h
  | some v =>
    obtain ⟨q, c⟩ := v
    simp only [hp] at h
    obtain ⟨hpq, hget, -⟩ := peekIdx_spec hp
    by_cases hcc : (c = colon || c = comma) = true
    · rw [if_pos hcc] at h; cases h
    · rw [if_neg hcc] at h
      have := tokenAt_bounds hget h
      omega

/-- Every token produced by `nextToken` ends strictly after `pos` and within
the buffer. -/
theorem nextToken_bounds {b : Buf} {pos : Nat} {st : TState} {stk : List TState}
    {t : Tok} {p2 : Nat} {st2 : TState} {stk2 : List TState}
    (h : nextToken b pos st stk = .tok t p2 st2 stk2) : pos < p2 ∧ p2 ≤ b.length := by
  unfold nextToken at h
  cases hp : peekIdx b pos with
  | none => simp only [hp] at h; cases h
  | some v =>
    obtain ⟨q, c⟩ := v
    simp only [hp] at h
    obtain ⟨hpq, hget, -⟩ := peekIdx_spec hp
    by_cases hc1 : c = colon
    · rw [if_pos hc1] at h
      by_cases hst : st = TState.objColon
      · rw [if_pos hst] at h
        have := tokenCore_bounds h
        omega
      · rw [if_neg hst] at h; cases h
    rw [if_neg hc1] at h
    by_cases hc2 : c = comma
    · rw [if_pos hc2] at h
      cases st with
      | arrComma =>
        have := tokenCore_bounds h
        omega
      | objComma =>
        have := tokenCore_bounds h
        omega
      | top => cases h
      | arrStart => cases h
      | arrVal => cases h
      | objStart => cases h
      | objKey => cases h
      | objColon => cases h
      | objVal => cases h
    · rw [if_neg hc2] at h
      have := tokenAt_bounds hget h
      omega

/-- The decode iteration only moves forward and stays within the buffer. -/
theorem decodeLoop_bounds {b : Buf} {d0 : Nat} :
    ∀ (fuel pos : Nat) (st : TState) (stk : List TState) (e1 : Nat) (st2 : TState)
      (stk2 : List TState), decodeLoop b d0 fuel pos st stk = .ok (e1, st2, stk2) →
        pos ≤ e1 ∧ e1 ≤ b.length := by
  intro fuel
  induction fuel with
  | zero => intro pos st stk e1 st2 stk2 h; cases h
  | succ fuel ih =>
    intro pos st stk e1 st2 stk2 h
    rw [decodeLoop] at h
    cases hnt : nextToken b pos st stk with
    | eofTok => simp only [hnt] at h; cases h
    | errTok e => simp only [hnt] at h; cases h
    | tok t p2 st3 stk3 =>
      simp only [hnt] at h
      have hb := nextToken_bounds hnt
      by_cases h1 : stk3.length < d0
      · rw [if_pos h1] at h; cases h
      rw [if_neg h1] at h
      by_cases h2 : (stk3.length = d0 && (isScalarTok t || isCloseTok t)) = true
      · rw [if_pos h2] at h
        cases h
        omega
      · rw [if_neg h2] at h
        have := ih p2 st3 stk3 e1 st2 stk2 h
        omega

/-- `DecodeValue` only moves forward and stays within the buffer. -/
theorem decodeValue_bounds {b : Buf} {pos : Nat} {st : TState} {stk : List TState}
    {e1 : Nat} {st2 : TState} {stk2 : List TState}
    (h : decodeValue b pos st stk = .ok (e1, st2, stk2)) : pos ≤ e1 ∧ e1 ≤ b.length := by
  cases st with
  | arrComma =>
    unfold decodeValue at h
    cases hp : peekIdx b pos with
    | none => simp only [hp] at h; cases h
    | some v =>
      obtain ⟨q, c⟩ := v
      simp only [hp] at h
      obtain ⟨hpq, -, -⟩ := peekIdx_spec hp
      by_cases hc : c = comma
      · rw [if_pos hc] at h
        have := decodeLoop_bounds _ _ _ _ _ _ _ h
        omega
      · rw [if_neg hc] at h; cases h
  | objColon =>
    unfold decodeValue at h
    cases hp : peekIdx b pos with
    | none => simp only [hp] at h; cases h
    | some v =>
      obtain ⟨q, c⟩ := v
      simp only [hp] at h
      obtain ⟨hpq, -, -⟩ := peekIdx_spec hp
      by_cases hc : c = colon
      · rw [if_pos hc] at h
        have := decodeLoop_bounds _ _ _ _ _ _ _ h
        omega
      · rw [if_neg hc] at h; cases h
  | top =>
    have h2 : decodeLoop b stk.length (b.length + 1) pos TState.top stk = .ok (e1, st2, stk2) := h
    exact decodeLoop_bounds _ _ _ _ _ _ _ h2
  | arrStart =>
    have h2 : decodeLoop b stk.length (b.length + 1) pos TState.arrStart stk
        = .ok (e1, st2, stk2) := h
    exact decodeLoop_bounds _ _ _ _ _ _ _ h2
  | arrVal =>
    have h2 : decodeLoop b stk.length (b.length + 1) pos TState.arrVal stk
        = .ok (e1, st2, stk2) := h
    exact decodeLoop_bounds _ _ _ _ _ _ _ h2
  | objVal =>
    have h2 : decodeLoop b stk.length (b.length + 1) pos TState.objVal stk
        = .ok (e1, st2, stk2) := h
    exact decodeLoop_bounds _ _ _ _ _ _ _ h2
  | objStart =>
    have h2 : (Except.error JErr.syntaxErr : Except JErr (Nat × TState × List TState))
        = .ok (e1, st2, stk2) := h
    cases h2
  | objKey =>
    have h2 : (Except.error JErr.syntaxErr : Except JErr (Nat × TState × List TState))
        = .ok (e1, st2, stk2) := h
    cases h2
  | objComma =>
    have h2 : (Except.error JErr.syntaxErr : Except JErr (Nat × TState × List TState))
        = .ok (e1, st2, stk2) := h
    cases h2

/-- The forward comma scan moves strictly forward within the remaining input. -/
theorem scanCommaGo_bounds (l : List Char) :
    ∀ i r, scanCommaGo l i = some r → i < r ∧ r ≤ i + l.length := by
  induction l with
  | nil => intro i r h; cases h
  | cons c cs ih =>
    intro i r h
    rw [show scanCommaGo (c :: cs) i
          = if c = comma then some (i + 1) else scanCommaGo cs (i + 1) from rfl] at h
    by_cases hc : c = comma
    · rw [if_pos hc] at h
      cases h
      simp only [List.length_cons]
      omega
    · rw [if_neg hc] at h
      have := ih (i + 1) r h
      simp only [List.length_cons]
      omega

/-- A successful forward comma scan ends strictly after `e` and within the buffer. -/
theorem scanComma_bounds {b : Buf} {e r : Nat} (h : scanComma b e = some r) :
    e < r ∧ r ≤ b.length := by
  rw [scanComma] at h
  have := scanCommaGo_bounds (b.drop e) e r h
  have hlen : (b.drop e).length = b.length - e := by simp
  omega

/-- The forward colon scan moves strictly forward within the remaining input. -/
theorem colonScanGo_bounds (l : List Char) :
    ∀ i r, colonScanGo l i = some r → i < r ∧ r ≤ i + l.length := by
  induction l with
  | nil => intro i r h; cases h
  | cons c cs ih =>
    intro i r h
    rw [show colonScanGo (c :: cs) i
          = if c = colon then some (i + 1) else colonScanGo cs (i + 1) from rfl] at h
    by_cases hc : c = colon
    · rw [if_pos hc] at h
      cases h
      simp only [List.length_cons]
      omega
    · rw [if_neg hc] at h
      have := ih (i + 1) r h
      simp only [List.length_cons]
      omega

/-- A successful colon scan ends strictly after `s` and within the buffer. -/
theorem colonScan_bounds {b : Buf} {s r : Nat} (h : colonScan b s = some r) :
    s < r ∧ r ≤ b.length := by
  rw [colonScan] at h
  have := colonScanGo_bounds (b.drop s) s r h
  have hlen : (b.drop s).length = b.length - s := by simp
  omega

/-- When the scanning loop reports a match, the recorded range is ordered
and ends within the buffer. -/
theorem findLoop_matched_bounds {b : Buf} {name : List Char} :
    ∀ (fuel pos : Nat) (st : TState) (stk : List TState) (start s e : Nat),
      start ≤ pos → pos ≤ b.length →
      findLoop b name fuel pos st stk start = .matched s e → s ≤ e ∧ e ≤ b.length := by
  intro fuel
  induction fuel with
  | zero => intro pos st stk start s e h1 h2 h; cases h
  | succ fuel ih =>
    intro pos st stk start s e h1 h2 h
    rw [findLoop] at h
    cases hnt : nextToken b pos st stk with
    | eofTok => simp only [hnt] at h; cases h
    | errTok e3 => simp only [hnt] at h; cases h
    | tok t p2 st2 stk2 =>
      simp only [hnt] at h
      have hnb := nextToken_bounds hnt
      by_cases hm : t = Tok.str name
      · rw [if_pos hm] at h
        cases hdv : decodeValue b p2 st2 stk2 with
        | error e4 => simp only [hdv] at h; cases h
        | ok v =>
          obtain ⟨e1, st3, stk3⟩ := v
          simp only [hdv] at h
          have hdb := decodeValue_bounds hdv
          by_cases hmore : hasMore b e1 = true
          · rw [if_pos hmore] at h
            cases hgs : b.get? start with
            | none => simp only [hgs] at h; cases h
            | some c =>
              simp only [hgs] at h
              cases hsc : scanComma b e1 with
              | none => simp only [hsc] at h; cases h
              | some e2 =>
                simp only [hsc] at h
                cases h
                have hscb := scanComma_bounds hsc
                by_cases hcm : c = comma
                · rw [if_pos hcm]
                  omega
                · rw [if_neg hcm]
                  omega
          · rw [if_neg hmore] at h
            cases h
            omega
      · rw [if_neg hm] at h
        exact ih p2 st2 stk2 p2 s e le_rfl hnb.2 h

/-- Whenever `FindElement` reports `found = true`, the returned offsets
satisfy `0 ≤ start ≤ end ≤ length` — including through the window
translation of multi-segment paths. -/
theorem findElement_true_bounds :
    ∀ (names : List (List Char)) (b : Buf) (s e : Int),
      findElement b names = .ok true s e →
        0 ≤ s ∧ s ≤ e ∧ e ≤ (b.length : Int) := by
  intro names
  induction names with
  | nil =>
    intro b s e h
    cases h
  | cons name rest ih =>
    intro b s e h
    rw [findElement] at h
    cases hfl : findLoop b name (b.length + 1) 0 .top [] 0 with
    | errored e3 => simp only [hfl] at h; cases h
    | panicked => simp only [hfl] at h; cases h
    | noMatch s0 => simp only [hfl] at h; cases h
    | matched s0 e0 =>
      simp only [hfl] at h
      have hmb := findLoop_matched_bounds (b.length + 1) 0 .top [] 0 s0 e0
        (Nat.le_refl 0) (by omega) hfl
      by_cases hre : rest.isEmpty = true
      · rw [if_pos hre] at h
        cases h
        constructor
        · exact Int.ofNat_nonneg s0
        constructor
        · exact_mod_cast hmb.1
        · exact_mod_cast hmb.2
      · rw [if_neg hre] at h
        cases hcs : colonScan b s0 with
        | none => simp only [hcs] at h; cases h
        | some s2 =>
          simp only [hcs] at h
          cases hbs : backScan b (b.length + 2) (e0 : Int) with
          | none => simp only [hbs] at h; cases h
          | some e2 =>
            simp only [hbs] at h
            by_cases hg : (s2 : Int) ≤ e2 ∧ e2 ≤ (b.length : Int)
            · rw [if_pos hg] at h
              cases hin : findElement ((b.drop s2).take (e2 - (s2 : Int)).toNat) rest with
              | ok f si ei =>
                rw [hin] at h
                cases h
                have hib := ih _ si ei hin
                have hwl : ((b.drop s2).take (e2 - (s2 : Int)).toNat).length
                    = min (e2 - (s2 : Int)).toNat (b.length - s2) := by
                  simp
                rw [hwl] at hib
                have hmin : min (e2 - (s2 : Int)).toNat (b.length - s2)
                    = (e2 - (s2 : Int)).toNat := by
                  omega
                rw [hmin] at hib
                omega
              | err e4 => rw [hin] at h; cases h
              | panic => rw [hin] at h; cases h
            · rw [if_neg hg] at h
              cases h

/-- C7: for every buffer and every non-empty path, when FindElement returns
`found = true` with a nil error, the returned offsets satisfy
`0 ≤ start ≤ end ≤ len(buffer)`, including in the multi-segment case where
the nested offsets are translated back by the narrowed window's start. -/
theorem c7_found_range_bounds {b : Buf} {p : List (List Char)} {s e : Int}
    (h : findElement b p = .ok true s e) : 0 ≤ s ∧ s ≤ e ∧ e ≤ (b.length : Int) :=
  findElement_true_bounds p b s e h

/-- Witness for C7 on a nested buffer with a two-segment path. -/
theorem c7_found_range_bounds_witness :
    findElement (strOf "\x7b\"x\":\x7b\"y\":1\x7d\x7d") [strOf "x", strOf "y"] =
      .ok true 6 11 ∧
    (0 ≤ (6 : Int) ∧ (6 : Int) ≤ 11 ∧
      (11 : Int) ≤ ((strOf "\x7b\"x\":\x7b\"y\":1\x7d\x7d").length : Int)) := by
  have h : findElement (strOf "\x7b\"x\":\x7b\"y\":1\x7d\x7d") [strOf "x", strOf "y"] =
      .ok true 6 11 := by decide
  exact ⟨h, c7_found_range_bounds h⟩

/-- C1: whenever FindElement reports `found = true` with range `[start, end)`
and a nil error, DropElement returns exactly
`buffer[:start] ++ buffer[end:]` with a nil error. -/
theorem c1_drop_is_take_append_drop {b : Buf} {p : List (List Char)} {s e : Int}
    (h : findElement b p = .ok true s e) :
    dropElement b p = .ok (b.take s.toNat ++ b.drop e.toNat) := by
  have hb := findElement_true_bounds p b s e h
  simp only [dropElement, h]
  rw [if_pos (by omega)]

/-- Witness for C1 at `{"a":1,"b":2}` with path `["a"]`. -/
theorem c1_drop_is_take_append_drop_witness :
    findElement (strOf "\x7b\"a\":1,\"b\":2\x7d") [strOf "a"] = .ok true 1 7 ∧
    dropElement (strOf "\x7b\"a\":1,\"b\":2\x7d") [strOf "a"] =
      .ok ((strOf "\x7b\"a\":1,\"b\":2\x7d").take (1 : Int).toNat
        ++ (strOf "\x7b\"a\":1,\"b\":2\x7d").drop (7 : Int).toNat) := by
  have h : findElement (strOf "\x7b\"a\":1,\"b\":2\x7d") [strOf "a"] = .ok true 1 7 := by
    decide
  exact ⟨h, c1_drop_is_take_append_drop h⟩

/-- When the standalone tokenizer run succeeds and yields no token equal to
the element name, the scanning loop of `FindElement` walks the same token
sequence, never matches, and ends in the not-found outcome. -/
theorem findLoop_no_match {b : Buf} {name : List Char} :
    ∀ (fuel pos : Nat) (st : TState) (stk : List TState) (start : Nat) (ts : List Tok),
      tokLoop b fuel pos st stk = .ok ts → Tok.str name ∉ ts →
      ∃ s2, findLoop b name fuel pos st stk start = .noMatch s2 := by
  intro fuel
  induction fuel with
  | zero => intro pos st stk start ts h hm; cases h
  | succ fuel ih =>
    intro pos st stk start ts h hm
    rw [tokLoop] at h
    rw [findLoop]
    cases hnt : nextToken b pos st stk with
    | eofTok => exact ⟨start, by simp only [hnt]⟩
    | errTok e => simp only [hnt] at h; cases h
    | tok t p2 st2 stk2 =>
      simp only [hnt] at h ⊢
      cases hrec : tokLoop b fuel p2 st2 stk2 with
      | error e => simp only [hrec] at h; cases h
      | ok ts2 =>
        simp only [hrec] at h
        cases h
        have hne : ¬t = Tok.str name := by
          intro hEq
          exact hm (by rw [← hEq]; exact List.mem_cons_self t ts2)
        rw [if_neg hne]
        exact ih p2 st2 stk2 p2 ts2 hrec (fun hmem => hm (List.mem_cons_of_mem t hmem))

/-- C6: on a buffer the tokenizer consumes cleanly, a non-empty path whose
first segment matches no token ends in tokenizer exhaustion: FindElement
returns `found = false` with a nil error and DropElement returns the input
buffer unchanged. -/
theorem c6_absent_means_unchanged {b : Buf} {name : List Char} {rest : List (List Char)}
    {ts : List Tok} (h1 : tokenizeAll b = .ok ts) (h2 : Tok.str name ∉ ts) :
    (∃ s, findElement b (name :: rest) = .ok false s 0) ∧
      dropElement b (name :: rest) = .ok b := by
  have h1b : tokLoop b (b.length + 1) 0 .top [] = .ok ts := h1
  obtain ⟨s2, hfl⟩ := findLoop_no_match (b.length + 1) 0 .top [] 0 ts h1b h2
  have hfe : findElement b (name :: rest) = .ok false s2 0 := by
    simp only [findElement, hfl]
  exact ⟨⟨s2, hfe⟩, by simp [dropElement, hfe]⟩

/-- Witness for C6 at `{"a":1}` with the absent path `["b"]`. -/
theorem c6_absent_means_unchanged_witness :
    tokenizeAll (strOf "\x7b\"a\":1\x7d") =
      .ok [Tok.lbrace, Tok.str (strOf "a"), Tok.num, Tok.rbrace] ∧
    (∃ s, findElement (strOf "\x7b\"a\":1\x7d") [strOf "b"] = .ok false s 0) ∧
    dropElement (strOf "\x7b\"a\":1\x7d") [strOf "b"] = .ok (strOf "\x7b\"a\":1\x7d") := by
  have h1 : tokenizeAll (strOf "\x7b\"a\":1\x7d") =
      .ok [Tok.lbrace, Tok.str (strOf "a"), Tok.num, Tok.rbrace] := by decide
  have h2 : Tok.str (strOf "b") ∉ [Tok.lbrace, Tok.str (strOf "a"), Tok.num, Tok.rbrace] := by
    decide
  exact ⟨h1, c6_absent_means_unchanged h1 h2⟩

/-- C8 (amended): after a successful Drop, a second Drop with the same path
on the shortened buffer returns `found = false` and leaves it unchanged,
provided the path's first segment no longer matches any token of the
shortened buffer. -/
theorem c8_second_drop_unchanged {b b2 : Buf} {name : List Char} {rest : List (List Char)}
    {s e : Int} {ts2 : List Tok}
    (h1 : findElement b (name :: rest) = .ok true s e)
    (h2 : dropElement b (name :: rest) = .ok b2)
    (h3 : tokenizeAll b2 = .ok ts2) (h4 : Tok.str name ∉ ts2) :
    (∃ s2, findElement b2 (name :: rest) = .ok false s2 0) ∧
      dropElement b2 (name :: rest) = .ok b2 := by
  have h3b : tokLoop b2 (b2.length + 1) 0 .top [] = .ok ts2 := h3
  obtain ⟨s2, hfl⟩ := findLoop_no_match (b2.length + 1) 0 .top [] 0 ts2 h3b h4
  have hfe : findElement b2 (name :: rest) = .ok false s2 0 := by
    simp only [findElement, hfl]
  exact ⟨⟨s2, hfe⟩, by simp [dropElement, hfe]⟩

/-- Witness for C8 (amended) at `{"a":1,"b":2}` with path `["b"]`. -/
theorem c8_second_drop_unchanged_witness :
    findElement (strOf "\x7b\"a\":1,\"b\":2\x7d") [strOf "b"] = .ok true 6 12 ∧
    dropElement (strOf "\x7b\"a\":1,\"b\":2\x7d") [strOf "b"] = .ok (strOf "\x7b\"a\":1\x7d") ∧
    (∃ s, findElement (strOf "\x7b\"a\":1\x7d") [strOf "b"] = .ok false s 0) ∧
    dropElement (strOf "\x7b\"a\":1\x7d") [strOf "b"] = .ok (strOf "\x7b\"a\":1\x7d") := by
  have h1 : findElement (strOf "\x7b\"a\":1,\"b\":2\x7d") [strOf "b"] = .ok true 6 12 := by
    decide
  have h2 : dropElement (strOf "\x7b\"a\":1,\"b\":2\x7d") [strOf "b"] =
      .ok (strOf "\x7b\"a\":1\x7d") := by decide
  have h3 : tokenizeAll (strOf "\x7b\"a\":1\x7d") =
      .ok [Tok.lbrace, Tok.str (strOf "a"), Tok.num, Tok.rbrace] := by decide
  have h4 : Tok.str (strOf "b") ∉ [Tok.lbrace, Tok.str (strOf "a"), Tok.num, Tok.rbrace] := by
    decide
  exact ⟨h1, h2, c8_second_drop_unchanged h1 h2 h3 h4⟩

/-- Every token produced by `tokenAt` transitions the machine according to
`StepShape` relative to the dispatch state. -/
theorem tokenAt_trans {b : Buf} {q : Nat} {c : Char} {st : TState} {stk : List TState}
    {t : Tok} {p2 : Nat} {st2 : TState} {stk2 : List TState}
    (h : tokenAt b q c st stk = .tok t p2 st2 stk2) : StepShape st stk t st2 stk2 := by
  unfold tokenAt at h
  by_cases h1 : c = openSqBracket
  · rw [if_pos h1] at h
    by_cases hv : valueAllowed st = true
    · rw [if_pos hv] at h
      cases h
      exact Or.inr (Or.inl ⟨rfl, hv, Or.inl rfl⟩)
    · rw [if_neg hv] at h; cases h
  rw [if_neg h1] at h
  by_cases h2 : c = sqBracket
  · rw [if_pos h2] at h
    by_cases hv : (st = TState.arrStart || st = TState.arrComma) = true
    · rw [if_pos hv] at h
      cases stk with
      | nil => cases h
      | cons s rest =>
        cases h
        exact Or.inr (Or.inr ⟨s, rfl, rfl, rfl⟩)
    · rw [if_neg hv] at h; cases h
  rw [if_neg h2] at h
  by_cases h3 : c = openCurlyBracket
  · rw [if_pos h3] at h
    by_cases hv : valueAllowed st = true
    · rw [if_pos hv] at h
      cases h
      exact Or.inr (Or.inl ⟨rfl, hv, Or.inr rfl⟩)
    · rw [if_neg hv] at h; cases h
  rw [if_neg h3] at h
  by_cases h4 : c = closingCurlyBracket
  · rw [if_pos h4] at h
    by_cases hv : (st = TState.objStart || st = TState.objComma) = true
    · rw [if_pos hv] at h
      cases stk with
      | nil => cases h
      | cons s rest =>
        cases h
        exact Or.inr (Or.inr ⟨s, rfl, rfl, rfl⟩)
    · rw [if_neg hv] at h; cases h
  rw [if_neg h4] at h
  by_cases h5 : c = quoteMark
  · rw [if_pos h5] at h
    by_cases hv : (st = TState.objStart || st = TState.objKey) = true
    · rw [if_pos hv] at h
      cases hscan : scanString b q with
      | none => rw [hscan] at h; cases h
      | some v =>
        obtain ⟨content0, p0⟩ := v
        rw [hscan] at h
        cases h
        refine Or.inl ⟨rfl, rfl, Or.inl ⟨rfl, ?_⟩⟩
        rcases Bool.or_eq_true_iff.mp hv with hv2 | hv2
        · exact Or.inl (by exact of_decide_eq_true hv2)
        · exact Or.inr (by exact of_decide_eq_true hv2)
    · rw [if_neg hv] at h
      by_cases hv2 : valueAllowed st = true
      · rw [if_pos hv2] at h
        cases hscan : scanString b q with
        | none => rw [hscan] at h; cases h
        | some v =>
          obtain ⟨content0, p0⟩ := v
          rw [hscan] at h
          cases h
          exact Or.inl ⟨rfl, rfl, Or.inr ⟨hv2, rfl⟩⟩
      · rw [if_neg hv2] at h; cases h
  rw [if_neg h5] at h
  by_cases h6 : (c.isDigit || c = '-') = true
  · rw [if_pos h6] at h
    by_cases hv : valueAllowed st = true
    · rw [if_pos hv] at h
      cases h
      exact Or.inl ⟨rfl, rfl, Or.inr ⟨hv, rfl⟩⟩
    · rw [if_neg hv] at h; cases h
  rw [if_neg h6] at h
  by_cases h7 : c = 't'
  · rw [if_pos h7] at h
    by_cases hv : valueAllowed st = true
    · rw [if_pos hv] at h
      by_cases hpre : ['t', 'r', 'u', 'e'].isPrefixOf (b.drop q) = true
      · rw [if_pos hpre] at h
        cases h
        exact Or.inl ⟨rfl, rfl, Or.inr ⟨hv, rfl⟩⟩
      · rw [if_neg hpre] at h; cases h
    · rw [if_neg hv] at h; cases h
  rw [if_neg h7] at h
  by_cases h8 : c = 'f'
  · rw [if_pos h8] at h
    by_cases hv : valueAllowed st = true
    · rw [if_pos hv] at h
      by_cases hpre : ['f', 'a', 'l', 's', 'e'].isPrefixOf (b.drop q) = true
      · rw [if_pos hpre] at h
        cases h
        exact Or.inl ⟨rfl, rfl, Or.inr ⟨hv, rfl⟩⟩
      · rw [if_neg hpre] at h; cases h
    · rw [if_neg hv] at h; cases h
  rw [if_neg h8] at h
  by_cases h9 : c = 'n'
  · rw [if_pos h9] at h
    by_cases hv : valueAllowed st = true
    · rw [if_pos hv] at h
      by_cases hpre : ['n', 'u', 'l', 'l'].isPrefixOf (b.drop q) = true
      · rw [if_pos hpre] at h
        cases h
        exact Or.inl ⟨rfl, rfl, Or.inr ⟨hv, rfl⟩⟩
      · rw [if_neg hpre] at h; cases h
    · rw [if_neg hv] at h; cases h
  rw [if_neg h9] at h
  cases h

/-- `tokenAt` never reports a clean end of input. -/
theorem tokenAt_ne_eofTok {b : Buf} {q : Nat} {c : Char} {st : TState} {stk : List TState}
    (h : tokenAt b q c st stk = .eofTok) : False := by
  unfold tokenAt at h
  by_cases h1 : c = openSqBracket
  · rw [if_pos h1] at h
    by_cases hv : valueAllowed st = true
    · rw [if_pos hv] at h; cases h
    · rw [if_neg hv] at h; cases h
  rw [if_neg h1] at h
  by_cases h2 : c = sqBracket
  · rw [if_pos h2] at h
    by_cases hv : (st = TState.arrStart || st = TState.arrComma) = true
    · rw [if_pos hv] at h
      cases stk with
      | nil => cases h
      | cons s rest => cases h
    · rw [if_neg hv] at h; cases h
  rw [if_neg h2] at h
  by_cases h3 : c = openCurlyBracket
  · rw [if_pos h3] at h
    by_cases hv : valueAllowed st = true
    · rw [if_pos hv] at h; cases h
    · rw [if_neg hv] at h; cases h
  rw [if_neg h3] at h
  by_cases h4 : c = closingCurlyBracket
  · rw [if_pos h4] at h
    by_cases hv : (st = TState.objStart || st = TState.objComma) = true
    · rw [if_pos hv] at h
      cases stk with
      | nil => cases h
      | cons s rest => cases h
    · rw [if_neg hv] at h; cases h
  rw [if_neg h4] at h
  by_cases h5 : c = quoteMark
  · rw [if_pos h5] at h
    by_cases hv : (st = TState.objStart || st = TState.objKey) = true
    · rw [if_pos hv] at h
      cases hscan : scanString b q with
      | none => rw [hscan] at h; cases h
      | some v =>
        obtain ⟨content0, p0⟩ := v
        rw [hscan] at h
        cases h
    · rw [if_neg hv] at h
      by_cases hv2 : valueAllowed st = true
      · rw [if_pos hv2] at h
        cases hscan : scanString b q with
        | none => rw [hscan] at h; cases h
        | some v =>
          obtain ⟨content0, p0⟩ := v
          rw [hscan] at h
          cases h
      · rw [if_neg hv2] at h; cases h
  rw [if_neg h5] at h
  by_cases h6 : (c.isDigit || c = '-') = true
  · rw [if_pos h6] at h
    by_cases hv : valueAllowed st = true
    · rw [if_pos hv] at h; cases h
    · rw [if_neg hv] at h; cases h
  rw [if_neg h6] at h
  by_cases h7 : c = 't'
  · rw [if_pos h7] at h
    by_cases hv : valueAllowed st = true
    · rw [if_pos hv] at h
      by_cases hpre : ['t', 'r', 'u', 'e'].isPrefixOf (b.drop q) = true
      · rw [if_pos hpre] at h; cases h
      · rw [if_neg hpre] at h; cases h
    · rw [if_neg hv] at h; cases h
  rw [if_neg h7] at h
  by_cases h8 : c = 'f'
  · rw [if_pos h8] at h
    by_cases hv : valueAllowed st = true
    · rw [if_pos hv] at h
      by_cases hpre : ['f', 'a', 'l', 's', 'e'].isPrefixOf (b.drop q) = true
      · rw [if_pos hpre] at h; cases h
      · rw [if_neg hpre] at h; cases h
    · rw [if_neg hv] at h; cases h
  rw [if_neg h8] at h
  by_cases h9 : c = 'n'
  · rw [if_pos h9] at h
    by_cases hv : valueAllowed st = true
    · rw [if_pos hv] at h
      by_cases hpre : ['n', 'u', 'l', 'l'].isPrefixOf (b.drop q) = true
      · rw [if_pos hpre] at h; cases h
      · rw [if_neg hpre] at h; cases h
    · rw [if_neg hv] at h; cases h
  rw [if_neg h9] at h
  cases h

/-- Every token produced by `tokenCore` transitions the machine according to
`StepShape` relative to the state it dispatches from. -/
theorem tokenCore_trans {b : Buf} {pos : Nat} {st : TState} {stk : List TState}
    {t : Tok} {p2 : Nat} {st2 : TState} {stk2 : List TState}
    (h : tokenCore b pos st stk = .tok t p2 st2 stk2) : StepShape st stk t st2 stk2 := by
  unfold tokenCore at h
  cases hp : peekIdx b pos with
  | none => simp only [hp] at h; cases h
  | some v =>
    obtain ⟨q, c⟩ := v
    simp only [hp] at h
    by_cases hcc : (c = colon || c = comma) = true
    · rw [if_pos hcc] at h; cases h
    · rw [if_neg hcc] at h
      exact tokenAt_trans h

/-- Every token produced by `nextToken` transitions the machine according to
`StepShape` relative to some dispatched state. -/
theorem nextToken_trans {b : Buf} {pos : Nat} {st : TState} {stk : List TState}
    {t : Tok} {p2 : Nat} {st2 : TState} {stk2 : List TState}
    (h : nextToken b pos st stk = .tok t p2 st2 stk2) :
    ∃ st1, Dispatched st st1 ∧ StepShape st1 stk t st2 stk2 := by
  unfold nextToken at h
  cases hp : peekIdx b pos with
  | none => simp only [hp] at h; cases h
  | some v =>
    obtain ⟨q, c⟩ := v
    simp only [hp] at h
    by_cases hc1 : c = colon
    · rw [if_pos hc1] at h
      by_cases hst : st = TState.objColon
      · rw [if_pos hst] at h
        exact ⟨.objVal, Or.inr (Or.inl ⟨hst, rfl⟩), tokenCore_trans h⟩
      · rw [if_neg hst] at h; cases h
    rw [if_neg hc1] at h
    by_cases hc2 : c = comma
    · rw [if_pos hc2] at h
      cases st with
      | arrComma => exact ⟨.arrVal, Or.inr (Or.inr (Or.inl ⟨rfl, rfl⟩)), tokenCore_trans h⟩
      | objComma => exact ⟨.objKey, Or.inr (Or.inr (Or.inr ⟨rfl, rfl⟩)), tokenCore_trans h⟩
      | top => cases h
      | arrStart => cases h
      | arrVal => cases h
      | objStart => cases h
      | objKey => cases h
      | objColon => cases h
      | objVal => cases h
    · rw [if_neg hc2] at h
      exact ⟨st, Or.inl rfl, tokenAt_trans h⟩

/-- From the `top` state a clean EOF can only be reported at exhausted input. -/
theorem nextToken_top_eof {b : Buf} {pos : Nat} {stk : List TState}
    (h : nextToken b pos .top stk = .eofTok) : peekIdx b pos = none := by
  unfold nextToken at h
  cases hp : peekIdx b pos with
  | none => rfl
  | some v =>
    obtain ⟨q, c⟩ := v
    simp only [hp] at h
    by_cases hc1 : c = colon
    · rw [if_pos hc1, if_neg (by decide)] at h; cases h
    rw [if_neg hc1] at h
    by_cases hc2 : c = comma
    · rw [if_pos hc2] at h
      have h2 : (TokRes.errTok JErr.syntaxErr) = TokRes.eofTok := h
      cases h2
    · rw [if_neg hc2] at h
      exact absurd h tokenAt_ne_eofTok

/-- `valueEnd` reaches `top` only from `top`. -/
theorem valueEnd_eq_top {s : TState} (h : valueEnd s = .top) : s = .top := by
  cases s
  case top => rfl
  all_goals exact absurd h (by decide)

/-- After a complete value from a value-beginning state the machine sits in
one of the three after-value states. -/
theorem valueEnd_allowed {s : TState} (hva : valueAllowed s = true) :
    valueEnd s = .top ∨ valueEnd s = .arrComma ∨ valueEnd s = .objComma := by
  cases s
  case top => exact Or.inl rfl
  case arrStart => exact Or.inr (Or.inl rfl)
  case arrVal => exact Or.inr (Or.inl rfl)
  case objVal => exact Or.inr (Or.inr rfl)
  all_goals exact absurd hva (by decide)

/-- One token step preserves the validation invariant, with the count
updated by the top-level completion rule. -/
theorem valInv_step {b : Buf} {pos : Nat} {st : TState} {stk : List TState} {cnt : Nat}
    {t : Tok} {p2 : Nat} {st2 : TState} {stk2 : List TState}
    (hInv : ValInv b pos st stk cnt) (hnt : nextToken b pos st stk = .tok t p2 st2 stk2) :
    ValInv b p2 st2 stk2 (if completesTop t stk2 then cnt + 1 else cnt) := by
  obtain ⟨f, hf⟩ := hInv
  cases f with
  | zero => cases hf
  | succ f =>
    rw [valLoop] at hf
    simp only [hnt] at hf
    exact ⟨f, hf⟩

/-- Under the validation invariant the tokenizer cannot report an error. -/
theorem valInv_no_err {b : Buf} {pos : Nat} {st : TState} {stk : List TState} {cnt : Nat}
    {e : JErr} (hInv : ValInv b pos st stk cnt)
    (hnt : nextToken b pos st stk = .errTok e) : False := by
  obtain ⟨f, hf⟩ := hInv
  cases f with
  | zero => cases hf
  | succ f =>
    rw [valLoop] at hf
    simp only [hnt] at hf
    cases hf

/-- The completed-value count never decreases along a validation run. -/
theorem valLoop_cnt_le {b : Buf} :
    ∀ (f pos : Nat) (st : TState) (stk : List TState) (cnt n : Nat),
      valLoop b f pos st stk cnt = .ok n → cnt ≤ n := by
  intro f
  induction f with
  | zero => intro pos st stk cnt n h; cases h
  | succ f ih =>
    intro pos st stk cnt n h
    rw [valLoop] at h
    cases hnt : nextToken b pos st stk with
    | eofTok =>
      simp only [hnt] at h
      by_cases hts : st = TState.top ∧ stk = []
      · rw [if_pos hts] at h; cases h; exact le_refl _
      · rw [if_neg hts] at h; cases h
    | errTok e => simp only [hnt] at h; cases h
    | tok t p2 st2 stk2 =>
      simp only [hnt] at h
      have := ih p2 st2 stk2 _ n h
      by_cases hct : completesTop t stk2 = true
      · rw [if_pos hct] at this; omega
      · rw [if_neg hct] at this; omega

/-- A validation run inside an open structure must complete at least one
more top-level value before it can end cleanly. -/
theorem valLoop_cnt_succ_le {b : Buf} :
    ∀ (f pos : Nat) (st : TState) (stk : List TState) (cnt n : Nat), stk ≠ [] →
      valLoop b f pos st stk cnt = .ok n → cnt + 1 ≤ n := by
  intro f
  induction f with
  | zero => intro pos st stk cnt n hne h; cases h
  | succ f ih =>
    intro pos st stk cnt n hne h
    rw [valLoop] at h
    cases hnt : nextToken b pos st stk with
    | eofTok =>
      simp only [hnt] at h
      rw [if_neg (fun hh => hne hh.2)] at h
      cases h
    | errTok e => simp only [hnt] at h; cases h
    | tok t p2 st2 stk2 =>
      simp only [hnt] at h
      by_cases hct : completesTop t stk2 = true
      · rw [if_pos hct] at h
        exact valLoop_cnt_le f p2 st2 stk2 (cnt + 1) n h
      · rw [if_neg hct] at h
        have hstk2 : stk2 ≠ [] := by
          intro h0
          subst h0
          obtain ⟨st1, hd, hshape⟩ := nextToken_trans hnt
          rcases hshape with ⟨hsk, hscal, -⟩ | ⟨hsk, -, -⟩ | ⟨s0, hsk, -, hcl⟩
          · exact hne hsk.symm
          · cases hsk
          · exact hct (by simp [completesTop, hcl])
        exact ih p2 st2 stk2 _ n hstk2 h

/-- A validation run at top level with pending input must complete at least
one more top-level value. -/
theorem valLoop_top_cnt {b : Buf} :
    ∀ (f pos cnt n : Nat) (x : Nat × Char), valLoop b f pos .top [] cnt = .ok n →
      peekIdx b pos = some x → cnt + 1 ≤ n := by
  intro f pos cnt n x h hp
  cases f with
  | zero => cases h
  | succ f =>
    rw [valLoop] at h
    cases hnt : nextToken b pos .top [] with
    | eofTok =>
      have hn := nextToken_top_eof hnt
      rw [hn] at hp
      cases hp
    | errTok e => simp only [hnt] at h; cases h
    | tok t p2 st2 stk2 =>
      simp only [hnt] at h
      by_cases hct : completesTop t stk2 = true
      · rw [if_pos hct] at h
        exact valLoop_cnt_le f p2 st2 stk2 (cnt + 1) n h
      · rw [if_neg hct] at h
        have hstk2 : stk2 ≠ [] := by
          intro h0
          subst h0
          obtain ⟨st1, hd, hshape⟩ := nextToken_trans hnt
          rcases hshape with ⟨hsk, hscal, -⟩ | ⟨hsk, -, -⟩ | ⟨s0, hsk, -, hcl⟩
          · exact hct (by simp [completesTop, hscal])
          · cases hsk
          · cases hsk
        exact valLoop_cnt_succ_le f p2 st2 stk2 _ n hstk2 h

/-- One token step preserves configuration well-formedness. -/
theorem stackOK_step {b : Buf} {pos : Nat} {st : TState} {stk : List TState}
    {t : Tok} {p2 : Nat} {st2 : TState} {stk2 : List TState}
    (hs : StackOK st stk) (hnt : nextToken b pos st stk = .tok t p2 st2 stk2) :
    StackOK st2 stk2 := by
  obtain ⟨hs1, hs2, hs3⟩ := hs
  obtain ⟨st1, hd, hshape⟩ := nextToken_trans hnt
  have hd_top : st1 = .top → st = .top := by
    rcases hd with rfl | ⟨rfl, rfl⟩ | ⟨rfl, rfl⟩ | ⟨rfl, rfl⟩
    · exact fun hh => hh
    · intro hh; cases hh
    · intro hh; cases hh
    · intro hh; cases hh
  rcases hshape with ⟨hsk, hsc, hst2⟩ | ⟨hsk, hva, hst2⟩ | ⟨s0, hsk, hst2, hcl⟩
  · subst hsk
    refine ⟨?_, hs2, hs3⟩
    intro htop
    rcases hst2 with ⟨ho, -⟩ | ⟨-, hve⟩
    · rw [ho] at htop; cases htop
    · rw [hve] at htop
      exact hs1 (hd_top (valueEnd_eq_top htop))
  · subst hsk
    refine ⟨?_, ?_, ?_⟩
    · intro htop
      rcases hst2 with h0 | h0 <;> (rw [h0] at htop; cases htop)
    · intro s hmem
      rcases List.mem_cons.mp hmem with rfl | hmem2
      · exact hva
      · exact hs2 s hmem2
    · cases stk with
      | nil => intro s hmem; simp at hmem
      | cons a as =>
        intro s hmem
        rw [List.dropLast_cons₂] at hmem
        rcases List.mem_cons.mp hmem with rfl | hmem2
        · intro htop
          have h0 := hs1 (hd_top htop)
          cases h0
        · exact hs3 s hmem2
  · subst hsk
    have hva0 : valueAllowed s0 = true := hs2 s0 (List.mem_cons_self _ _)
    refine ⟨?_, ?_, ?_⟩
    · intro htop
      rw [hst2] at htop
      have h0 : s0 = .top := valueEnd_eq_top htop
      cases stk2 with
      | nil => rfl
      | cons a as =>
        exfalso
        have hmem : s0 ∈ (s0 :: a :: as).dropLast := by
          rw [List.dropLast_cons₂]
          exact List.mem_cons_self _ _
        exact hs3 s0 hmem h0
    · intro s hmem
      exact hs2 s (List.mem_cons_of_mem _ hmem)
    · intro s hmem
      cases stk2 with
      | nil => simp at hmem
      | cons a as =>
        have hmem2 : s ∈ (s0 :: a :: as).dropLast := by
          rw [List.dropLast_cons₂]
          exact List.mem_cons_of_mem _ hmem
        exact hs3 s hmem2

/-- In the `arrVal` state `nextToken` coincides with `tokenCore`. -/
theorem nextToken_arrVal_eq {b : Buf} {pos : Nat} {stk : List TState} :
    nextToken b pos .arrVal stk = tokenCore b pos .arrVal stk := by
  unfold nextToken tokenCore
  cases hp : peekIdx b pos with
  | none => rfl
  | some v =>
    obtain ⟨q, c⟩ := v
    simp only []
    by_cases hc1 : c = colon
    · rw [if_pos hc1, if_neg (by decide), if_pos (by simp [hc1])]
    rw [if_neg hc1]
    by_cases hc2 : c = comma
    · rw [if_pos hc2, if_pos (by simp [hc2])]
    · rw [if_neg hc2, if_neg (by simp [hc1, hc2])]

/-- In the `objVal` state `nextToken` coincides with `tokenCore`. -/
theorem nextToken_objVal_eq {b : Buf} {pos : Nat} {stk : List TState} :
    nextToken b pos .objVal stk = tokenCore b pos .objVal stk := by
  unfold nextToken tokenCore
  cases hp : peekIdx b pos with
  | none => rfl
  | some v =>
    obtain ⟨q, c⟩ := v
    simp only []
    by_cases hc1 : c = colon
    · rw [if_pos hc1, if_neg (by decide), if_pos (by simp [hc1])]
    rw [if_neg hc1]
    by_cases hc2 : c = comma
    · rw [if_pos hc2, if_pos (by simp [hc2])]
    · rw [if_neg hc2, if_neg (by simp [hc1, hc2])]

/-- Consuming the pending array comma leaves the validation run unchanged. -/
theorem valLoop_prepare_arr {b : Buf} {pos q : Nat} {stk : List TState} {cnt : Nat}
    (hp : peekIdx b pos = some (q, comma)) :
    ∀ f, valLoop b f pos .arrComma stk cnt = valLoop b f (q + 1) .arrVal stk cnt := by
  have h1 : nextToken b pos .arrComma stk = tokenCore b (q + 1) .arrVal stk := by
    unfold nextToken
    simp only [hp]
    simp
    intro hcc
    exact absurd hcc (by decide)
  have hnt : nextToken b pos .arrComma stk = nextToken b (q + 1) .arrVal stk := by
    rw [h1, nextToken_arrVal_eq]
  intro f
  cases f with
  | zero => rfl
  | succ f =>
    rw [valLoop, valLoop, hnt]
    cases hnt2 : nextToken b (q + 1) TState.arrVal stk with
    | eofTok => rw [if_neg (by simp), if_neg (by simp)]
    | errTok e => rfl
    | tok t p2 st2 stk2 => rfl

/-- Consuming the pending object colon leaves the validation run unchanged. -/
theorem valLoop_prepare_obj {b : Buf} {pos q : Nat} {stk : List TState} {cnt : Nat}
    (hp : peekIdx b pos = some (q, colon)) :
    ∀ f, valLoop b f pos .objColon stk cnt = valLoop b f (q + 1) .objVal stk cnt := by
  have h1 : nextToken b pos .objColon stk = tokenCore b (q + 1) .objVal stk := by
    unfold nextToken
    simp only [hp]
    simp
  have hnt : nextToken b pos .objColon stk = nextToken b (q + 1) .objVal stk := by
    rw [h1, nextToken_objVal_eq]
  intro f
  cases f with
  | zero => rfl
  | succ f =>
    rw [valLoop, valLoop, hnt]
    cases hnt2 : nextToken b (q + 1) TState.objVal stk with
    | eofTok => rw [if_neg (by simp), if_neg (by simp)]
    | errTok e => rfl
    | tok t p2 st2 stk2 => rfl

/-- The decode iteration preserves the validation invariant and
well-formedness, ends in an after-value state at the entry depth, and, when
it completes a top-level value, accounts for it in the count. -/
theorem decodeLoop_inv {b : Buf} {d0 : Nat} :
    ∀ (fuel pos : Nat) (st : TState) (stk : List TState) (cnt e1 : Nat) (st3 : TState)
      (stk3 : List TState),
      ValInv b pos st stk cnt → StackOK st stk →
      d0 ≤ stk.length → (stk.length = d0 → valueAllowed st = true) →
      decodeLoop b d0 fuel pos st stk = .ok (e1, st3, stk3) →
      ∃ cnt3, ValInv b e1 st3 stk3 cnt3 ∧ StackOK st3 stk3 ∧
        (st3 = .top ∨ st3 = .arrComma ∨ st3 = .objComma) ∧ (stk3 = [] → 1 ≤ cnt3) := by
  intro fuel
  induction fuel with
  | zero => intro pos st stk cnt e1 st3 stk3 _ _ _ _ h; cases h
  | succ fuel ih =>
    intro pos st stk cnt e1 st3 stk3 hInv hSOK hge hval h
    rw [decodeLoop] at h
    cases hnt : nextToken b pos st stk with
    | eofTok => simp only [hnt] at h; cases h
    | errTok e => simp only [hnt] at h; cases h
    | tok t p2 st2 stk2 =>
      simp only [hnt] at h
      have hInv2 := valInv_step hInv hnt
      have hSOK2 := stackOK_step hSOK hnt
      by_cases h1 : stk2.length < d0
      · rw [if_pos h1] at h; cases h
      rw [if_neg h1] at h
      by_cases h2 : (stk2.length = d0 && (isScalarTok t || isCloseTok t)) = true
      · rw [if_pos h2] at h
        cases h
        obtain ⟨hlenb, hscb⟩ := Bool.and_eq_true_iff.mp h2
        have hlen2 : stk3.length = d0 := of_decide_eq_true hlenb
        refine ⟨if completesTop t stk3 then cnt + 1 else cnt, hInv2, hSOK2, ?_, ?_⟩
        · obtain ⟨st1, hd, hshape⟩ := nextToken_trans hnt
          rcases hshape with ⟨hsk, hscal, hst2⟩ | ⟨hsk, hva, hst2⟩ | ⟨s0, hsk, hst2, hcl⟩
          · rcases hst2 with ⟨ho, hst1⟩ | ⟨hva1, hve⟩
            · exfalso
              have hstlen : stk.length = d0 := by rw [← hsk]; exact hlen2
              have hvast := hval hstlen
              rcases hd with rfl | ⟨rfl, rfl⟩ | ⟨rfl, rfl⟩ | ⟨rfl, rfl⟩
              · rcases hst1 with rfl | rfl
                · exact absurd hvast (by decide)
                · exact absurd hvast (by decide)
              · rcases hst1 with h0 | h0 <;> cases h0
              · rcases hst1 with h0 | h0 <;> cases h0
              · exact absurd hvast (by decide)
            · rw [hve]
              exact valueEnd_allowed hva1
          · exfalso
            have : stk3.length = stk.length + 1 := by rw [hsk]; rfl
            omega
          · have hva0 : valueAllowed s0 = true :=
              hSOK.2.1 s0 (by rw [hsk]; exact List.mem_cons_self _ _)
            rw [hst2]
            exact valueEnd_allowed hva0
        · intro h0
          have hct : completesTop t stk3 = true := by
            subst h0
            simp [completesTop, hscb]
          rw [if_pos hct]
          omega
      · rw [if_neg h2] at h
        have hge2 : d0 ≤ stk2.length := Nat.le_of_not_lt h1
        have hval2 : stk2.length = d0 → valueAllowed st2 = true := by
          intro hlen2
          exfalso
          obtain ⟨st1, hd, hshape⟩ := nextToken_trans hnt
          rcases hshape with ⟨hsk, hscal, -⟩ | ⟨hsk, -, -⟩ | ⟨s0, hsk, -, hcl⟩
          · exact h2 (by simp [hlen2, hscal])
          · have : stk2.length = stk.length + 1 := by rw [hsk]; rfl
            omega
          · exact h2 (by simp [hlen2, hcl])
        exact ih p2 st2 stk2 _ e1 st3 stk3 hInv2 hSOK2 hge2 hval2 h

/-- `DecodeValue` preserves the validation invariant and well-formedness,
ends in an after-value state, and accounts for a completed top value. -/
theorem decodeValue_inv {b : Buf} {pos : Nat} {st : TState} {stk : List TState} {cnt e1 : Nat}
    {st3 : TState} {stk3 : List TState}
    (hInv : ValInv b pos st stk cnt) (hSOK : StackOK st stk)
    (h : decodeValue b pos st stk = .ok (e1, st3, stk3)) :
    ∃ cnt3, ValInv b e1 st3 stk3 cnt3 ∧ StackOK st3 stk3 ∧
      (st3 = .top ∨ st3 = .arrComma ∨ st3 = .objComma) ∧ (stk3 = [] → 1 ≤ cnt3) := by
  cases st with
  | arrComma =>
    unfold decodeValue at h
    cases hp : peekIdx b pos with
    | none => simp only [hp] at h; cases h
    | some v =>
      obtain ⟨q, c⟩ := v
      simp only [hp] at h
      by_cases hc : c = comma
      · rw [if_pos hc] at h
        subst hc
        have hInv2 : ValInv b (q + 1) .arrVal stk cnt := by
          obtain ⟨f, hf⟩ := hInv
          exact ⟨f, by rw [← valLoop_prepare_arr hp]; exact hf⟩
        have hSOK2 : StackOK .arrVal stk := by
          obtain ⟨hp1, hp2, hp3⟩ := hSOK
          refine ⟨?_, hp2, hp3⟩
          intro hh
          cases hh
        exact decodeLoop_inv _ _ _ _ _ _ _ _ hInv2 hSOK2 (le_refl _) (fun _ => by decide) h
      · rw [if_neg hc] at h; cases h
  | objColon =>
    unfold decodeValue at h
    cases hp : peekIdx b pos with
    | none => simp only [hp] at h; cases h
    | some v =>
      obtain ⟨q, c⟩ := v
      simp only [hp] at h
      by_cases hc : c = colon
      · rw [if_pos hc] at h
        subst hc
        have hInv2 : ValInv b (q + 1) .objVal stk cnt := by
          obtain ⟨f, hf⟩ := hInv
          exact ⟨f, by rw [← valLoop_prepare_obj hp]; exact hf⟩
        have hSOK2 : StackOK .objVal stk := by
          obtain ⟨hp1, hp2, hp3⟩ := hSOK
          refine ⟨?_, hp2, hp3⟩
          intro hh
          cases hh
        exact decodeLoop_inv _ _ _ _ _ _ _ _ hInv2 hSOK2 (le_refl _) (fun _ => by decide) h
      · rw [if_neg hc] at h; cases h
  | top =>
    have h2 : decodeLoop b stk.length (b.length + 1) pos .top stk = .ok (e1, st3, stk3) := h
    exact decodeLoop_inv _ _ _ _ _ _ _ _ hInv hSOK (le_refl _) (fun _ => by decide) h2
  | arrStart =>
    have h2 : decodeLoop b stk.length (b.length + 1) pos .arrStart stk = .ok (e1, st3, stk3) := h
    exact decodeLoop_inv _ _ _ _ _ _ _ _ hInv hSOK (le_refl _) (fun _ => by decide) h2
  | arrVal =>
    have h2 : decodeLoop b stk.length (b.length + 1) pos .arrVal stk = .ok (e1, st3, stk3) := h
    exact decodeLoop_inv _ _ _ _ _ _ _ _ hInv hSOK (le_refl _) (fun _ => by decide) h2
  | objVal =>
    have h2 : decodeLoop b stk.length (b.length + 1) pos .objVal stk = .ok (e1, st3, stk3) := h
    exact decodeLoop_inv _ _ _ _ _ _ _ _ hInv hSOK (le_refl _) (fun _ => by decide) h2
  | objStart =>
    have h2 : (Except.error JErr.syntaxErr : Except JErr (Nat × TState × List TState))
        = .ok (e1, st3, stk3) := h
    cases h2
  | objKey =>
    have h2 : (Except.error JErr.syntaxErr : Except JErr (Nat × TState × List TState))
        = .ok (e1, st3, stk3) := h
    cases h2
  | objComma =>
    have h2 : (Except.error JErr.syntaxErr : Except JErr (Nat × TState × List TState))
        = .ok (e1, st3, stk3) := h
    cases h2

/-- In the after-member state of an object every significant character other
than a comma or a closing curly bracket is a token error. -/
theorem tokenAt_objComma_err {b : Buf} {q : Nat} {c : Char} {stk : List TState}
    (hc : ¬c = closingCurlyBracket) :
    ∃ er, tokenAt b q c .objComma stk = .errTok er := by
  unfold tokenAt
  by_cases h1 : c = openSqBracket
  · rw [if_pos h1, if_neg (by decide)]; exact ⟨_, rfl⟩
  rw [if_neg h1]
  by_cases h2 : c = sqBracket
  · rw [if_pos h2, if_neg (by decide)]; exact ⟨_, rfl⟩
  rw [if_neg h2]
  by_cases h3 : c = openCurlyBracket
  · rw [if_pos h3, if_neg (by decide)]; exact ⟨_, rfl⟩
  rw [if_neg h3]
  rw [if_neg hc]
  by_cases h5 : c = quoteMark
  · rw [if_pos h5, if_neg (by decide), if_neg (by decide)]; exact ⟨_, rfl⟩
  rw [if_neg h5]
  by_cases h6 : (c.isDigit || c = '-') = true
  · rw [if_pos h6, if_neg (by decide)]; exact ⟨_, rfl⟩
  rw [if_neg h6]
  by_cases h7 : c = 't'
  · rw [if_pos h7, if_neg (by decide)]; exact ⟨_, rfl⟩
  rw [if_neg h7]
  by_cases h8 : c = 'f'
  · rw [if_pos h8, if_neg (by decide)]; exact ⟨_, rfl⟩
  rw [if_neg h8]
  by_cases h9 : c = 'n'
  · rw [if_pos h9, if_neg (by decide)]; exact ⟨_, rfl⟩
  rw [if_neg h9]
  exact ⟨_, rfl⟩

/-- In the after-element state of an array every significant character other
than a comma or a closing square bracket is a token error. -/
theorem tokenAt_arrComma_err {b : Buf} {q : Nat} {c : Char} {stk : List TState}
    (hc : ¬c = sqBracket) :
    ∃ er, tokenAt b q c .arrComma stk = .errTok er := by
  unfold tokenAt
  by_cases h1 : c = openSqBracket
  · rw [if_pos h1, if_neg (by decide)]; exact ⟨_, rfl⟩
  rw [if_neg h1]
  rw [if_neg hc]
  by_cases h3 : c = openCurlyBracket
  · rw [if_pos h3, if_neg (by decide)]; exact ⟨_, rfl⟩
  rw [if_neg h3]
  by_cases h4 : c = closingCurlyBracket
  · rw [if_pos h4, if_neg (by decide)]; exact ⟨_, rfl⟩
  rw [if_neg h4]
  by_cases h5 : c = quoteMark
  · rw [if_pos h5, if_neg (by decide), if_neg (by decide)]; exact ⟨_, rfl⟩
  rw [if_neg h5]
  by_cases h6 : (c.isDigit || c = '-') = true
  · rw [if_pos h6, if_neg (by decide)]; exact ⟨_, rfl⟩
  rw [if_neg h6]
  by_cases h7 : c = 't'
  · rw [if_pos h7, if_neg (by decide)]; exact ⟨_, rfl⟩
  rw [if_neg h7]
  by_cases h8 : c = 'f'
  · rw [if_pos h8, if_neg (by decide)]; exact ⟨_, rfl⟩
  rw [if_neg h8]
  by_cases h9 : c = 'n'
  · rw [if_pos h9, if_neg (by decide)]; exact ⟨_, rfl⟩
  rw [if_neg h9]
  exact ⟨_, rfl⟩

/-- In the `objComma` state, a significant character that is neither a comma
nor a closing curly bracket makes `nextToken` report an error. -/
theorem nextToken_objComma_err {b : Buf} {pos q : Nat} {c : Char} {stk : List TState}
    (hp : peekIdx b pos = some (q, c)) (hc1 : ¬c = comma) (hc2 : ¬c = closingCurlyBracket) :
    ∃ er, nextToken b pos .objComma stk = .errTok er := by
  unfold nextToken
  simp only [hp]
  by_cases hcol : c = colon
  · rw [if_pos hcol, if_neg (by decide)]; exact ⟨_, rfl⟩
  · rw [if_neg hcol, if_neg hc1]
    exact tokenAt_objComma_err hc2

/-- In the `arrComma` state, a significant character that is neither a comma
nor a closing square bracket makes `nextToken` report an error. -/
theorem nextToken_arrComma_err {b : Buf} {pos q : Nat} {c : Char} {stk : List TState}
    (hp : peekIdx b pos = some (q, c)) (hc1 : ¬c = comma) (hc2 : ¬c = sqBracket) :
    ∃ er, nextToken b pos .arrComma stk = .errTok er := by
  unfold nextToken
  simp only [hp]
  by_cases hcol : c = colon
  · rw [if_pos hcol, if_neg (by decide)]; exact ⟨_, rfl⟩
  · rw [if_neg hcol, if_neg hc1]
    exact tokenAt_arrComma_err hc2

/-- A positive `HasMoreAtLevel` answer pins down the next significant byte. -/
theorem hasMore_true_spec {b : Buf} {pos : Nat} (h : hasMore b pos = true) :
    ∃ q c, peekIdx b pos = some (q, c) ∧ ¬c = sqBracket ∧ ¬c = closingCurlyBracket := by
  unfold hasMore at h
  cases hp : peekIdx b pos with
  | none => rw [hp] at h; cases h
  | some v =>
    obtain ⟨q, c⟩ := v
    rw [hp] at h
    simp only [Bool.not_eq_true', Bool.or_eq_false_iff, decide_eq_false_iff_not] at h
    exact ⟨q, c, rfl, h.1, h.2⟩

/-- Whitespace is never a comma. -/
theorem ws_ne_comma {d : Char} (h : isWS d = true) : ¬d = comma := by
  intro hd
  subst hd
  exact absurd h (by decide)

/-- When the next significant byte at or after `pos` is a comma, the forward
comma scan succeeds. -/
theorem scanComma_find {b : Buf} :
    ∀ (n pos q : Nat), q - pos ≤ n → pos ≤ q →
      (∀ j, pos ≤ j → j < q → ∃ d, b.get? j = some d ∧ isWS d = true) →
      b.get? q = some comma → ∃ r, scanComma b pos = some r := by
  intro n
  induction n with
  | zero =>
    intro pos q hle hpq hws hq
    have hpq2 : pos = q := by omega
    subst hpq2
    refine ⟨pos + 1, ?_⟩
    rw [scanComma, drop_cons_of_get? hq]
    rfl
  | succ n ih =>
    intro pos q hle hpq hws hq
    by_cases hpq2 : pos = q
    · subst hpq2
      refine ⟨pos + 1, ?_⟩
      rw [scanComma, drop_cons_of_get? hq]
      rfl
    · have hlt : pos < q := lt_of_le_of_ne hpq hpq2
      obtain ⟨d, hd, hwsd⟩ := hws pos (le_refl _) hlt
      have hdc : ¬d = comma := ws_ne_comma hwsd
      have hstep : scanComma b pos = scanComma b (pos + 1) := by
        rw [scanComma, scanComma, drop_cons_of_get? hd]
        rw [show scanCommaGo (d :: b.drop (pos + 1)) pos
              = if d = comma then some (pos + 1) else scanCommaGo (b.drop (pos + 1)) (pos + 1)
            from rfl, if_neg hdc]
      rw [hstep]
      exact ih (pos + 1) q (by omega) (by omega) (fun j hj1 hj2 => hws j (by omega) hj2) hq

/-- Under the validation invariant the scanning loop of `FindElement` never
panics: the candidate-start comma test stays in bounds, and whenever
`HasMoreAtLevel` holds after a decoded value a separating comma is present
ahead, so the forward comma scan terminates inside the buffer. -/
theorem findLoop_no_panic {b : Buf} {name : List Char} :
    ∀ (fuel pos : Nat) (st : TState) (stk : List TState) (start cnt : Nat),
      ValInv b pos st stk cnt → StackOK st stk → start ≤ pos →
      findLoop b name fuel pos st stk start ≠ .panicked := by
  intro fuel
  induction fuel with
  | zero =>
    intro pos st stk start cnt _ _ _ h
    rw [findLoop] at h
    cases h
  | succ fuel ih =>
    intro pos st stk start cnt hInv hSOK hsp h
    rw [findLoop] at h
    cases hnt : nextToken b pos st stk with
    | eofTok => simp only [hnt] at h; cases h
    | errTok e => simp only [hnt] at h; cases h
    | tok t p2 st2 stk2 =>
      simp only [hnt] at h
      have hInv2 := valInv_step hInv hnt
      have hSOK2 := stackOK_step hSOK hnt
      obtain ⟨hnb1, hnb2⟩ := nextToken_bounds hnt
      by_cases hm : t = Tok.str name
      · rw [if_pos hm] at h
        cases hdv : decodeValue b p2 st2 stk2 with
        | error e4 => simp only [hdv] at h; cases h
        | ok v =>
          obtain ⟨e1, st3, stk3⟩ := v
          simp only [hdv] at h
          obtain ⟨hdb1, hdb2⟩ := decodeValue_bounds hdv
          obtain ⟨cnt3, hInv3, hSOK3, hst3, hcnt3⟩ := decodeValue_inv hInv2 hSOK2 hdv
          by_cases hmore : hasMore b e1 = true
          · rw [if_pos hmore] at h
            obtain ⟨q, c, hp, hnsq, hncl⟩ := hasMore_true_spec hmore
            have hsl : start < b.length := by omega
            have hgs : b.get? start = some (b.get ⟨start, hsl⟩) :=
              List.get?_eq_some.mpr ⟨hsl, rfl⟩
            simp only [hgs] at h
            rcases hst3 with h3top | h3arr | h3obj
            · subst h3top
              obtain ⟨hq1, -, -⟩ := hSOK3
              have hstk3 : stk3 = [] := hq1 rfl
              subst hstk3
              obtain ⟨f, hf⟩ := hInv3
              have hle := valLoop_top_cnt f e1 cnt3 1 (q, c) hf hp
              have hc1 := hcnt3 rfl
              omega
            · subst h3arr
              by_cases hcc : c = comma
              · subst hcc
                obtain ⟨hq1, hq2, hq3⟩ := peekIdx_spec hp
                obtain ⟨r, hr⟩ := scanComma_find (q - e1) e1 q (le_refl _) hq1 hq3 hq2
                simp only [hr] at h
                cases h
              · obtain ⟨er, herr⟩ := nextToken_arrComma_err hp hcc hnsq
                exact valInv_no_err hInv3 herr
            · subst h3obj
              by_cases hcc : c = comma
              · subst hcc
                obtain ⟨hq1, hq2, hq3⟩ := peekIdx_spec hp
                obtain ⟨r, hr⟩ := scanComma_find (q - e1) e1 q (le_refl _) hq1 hq3 hq2
                simp only [hr] at h
                cases h
              · obtain ⟨er, herr⟩ := nextToken_objComma_err hp hcc hncl
                exact valInv_no_err hInv3 herr
          · rw [if_neg hmore] at h
            cases h
      · rw [if_neg hm] at h
        exact ih p2 st2 stk2 p2 _ hInv2 hSOK2 (le_refl _) h

/-- C10 (amended): on every buffer the tokenizer accepts as well-formed
JSON, FindElement with a single-segment path returns a result rather than
panicking — the comma test and the forward comma scan stay in bounds.  (The
window-narrowing scans of multi-segment paths can still panic on
well-formed input, as the counterexample records.) -/
theorem c10_single_segment_no_panic {b : Buf} {name : List Char}
    (hv : jsonValid b = true) : findElement b [name] ≠ FRes.panic := by
  have hInv : ValInv b 0 .top [] 0 := by
    unfold jsonValid at hv
    cases hval : valLoop b (b.length + 1) 0 .top [] 0 with
    | error e => rw [hval] at hv; cases hv
    | ok n =>
      match n with
      | 0 => rw [hval] at hv; cases hv
      | 1 => exact ⟨b.length + 1, hval⟩
      | (n + 2) => rw [hval] at hv; cases hv
  have hSOK : StackOK .top [] := by
    refine ⟨fun _ => rfl, ?_, ?_⟩ <;> (intro s hs; simp at hs)
  intro h
  cases hfl : findLoop b name (b.length + 1) 0 .top [] 0 with
  | errored e =>
    rw [findElement] at h
    simp only [hfl] at h
    cases h
  | panicked =>
    exact findLoop_no_panic (b.length + 1) 0 .top [] 0 0 hInv hSOK (le_refl _) hfl
  | noMatch s =>
    rw [findElement] at h
    simp only [hfl] at h
    cases h
  | matched s e =>
    rw [findElement] at h
    simp only [hfl, List.isEmpty_nil, if_true] at h
    cases h

/-- Witness for C10 (amended) at `{"a":1,"b":2}` with path `["b"]`. -/
theorem c10_single_segment_no_panic_witness :
    jsonValid (strOf "\x7b\"a\":1,\"b\":2\x7d") = true ∧
    findElement (strOf "\x7b\"a\":1,\"b\":2\x7d") [strOf "b"] ≠ FRes.panic := by
  have hv : jsonValid (strOf "\x7b\"a\":1,\"b\":2\x7d") = true := by decide
  exact ⟨hv, c10_single_segment_no_panic hv⟩

end Jsonutil
